import Mathlib

/-
  Verification development for StatWrap's asset-tree utility layer
  (src/app/utils/asset.js).

  Modelling conventions:
  * JavaScript null and undefined are both modelled as `Option.none`;
    a JavaScript value that may be absent therefore has an `Option` type.
  * Strings are handled through their character lists (`String.data`);
    the string algorithms the source relies on (split, join, lastIndexOf,
    indexOf, substring, trim) are implemented here over `List Char`.
  * Node's `path` module is modelled for the POSIX platform
    (`path.sep = '/'`), with the process working directory taken to be
    the filesystem root whenever a relative path has to be resolved
    against it.
  * JavaScript functions that can throw (`path.resolve` and
    `path.relative` throw a TypeError on a non-string argument) are
    modelled with `Except String`.
-/

namespace StatWrap

/-- Character test for the POSIX path separator `path.sep = '/'`. -/
def isSlash (c : Char) : Bool := c == '/'

/-- Character test for the separator class `[\\/]` used by
`getExtensionFromUri` (both forward and back slashes). -/
def isAnySlash (c : Char) : Bool := c == '/' || c == '\\'

/-- JavaScript `String.prototype.split` for a class of single-character
separators, over character lists.  Empty fields are kept, and the result
is always non-empty (splitting the empty string gives `[[]]`, the model
of `['']`). -/
def splitBy (p : Char → Bool) : List Char → List (List Char)
  | [] => [[]]
  | c :: rest =>
    match splitBy p rest with
    | [] => [[]]
    | s :: ss => if p c then [] :: s :: ss else (c :: s) :: ss

/-- JavaScript `Array.prototype.join` with a single-character separator,
over character lists. -/
def joinBy (sep : Char) : List (List Char) → List Char
  | [] => []
  | [s] => s
  | s :: ss => s ++ sep :: joinBy sep ss

/-- JavaScript `String.prototype.lastIndexOf` for a single character;
`none` models the `-1` result. -/
def lastIdxOf (c : Char) : List Char → Option Nat
  | [] => none
  | x :: rest =>
    match lastIdxOf c rest with
    | some i => some (i + 1)
    | none => if x == c then some 0 else none

/-- Worker for JavaScript `String.prototype.indexOf` on a substring:
first index `≥ i` at which `pat` occurs. -/
def firstIdxOfFrom (pat : List Char) : List Char → Nat → Option Nat
  | [], i => if pat.isPrefixOf ([] : List Char) then some i else none
  | c :: t, i => if pat.isPrefixOf (c :: t) then some i else firstIdxOfFrom pat t (i + 1)

/-- JavaScript `s.indexOf(pat)`; `none` models `-1`. -/
def jsIndexOf (s pat : String) : Option Nat := firstIdxOfFrom pat.data s.data 0

/-- JavaScript whitespace test for `String.prototype.trim` (the cases
that matter here). -/
def isJsSpace (c : Char) : Bool := c == ' ' || c == '\t' || c == '\n' || c == '\r'

/-- JavaScript `String.prototype.trim`. -/
def jsTrim (s : String) : String :=
  String.mk (((s.data.dropWhile isJsSpace).reverse.dropWhile isJsSpace).reverse)

/-- Node `path.isAbsolute` for the POSIX platform, over characters. -/
def isAbsoluteChars : List Char → Bool
  | c :: _ => c == '/'
  | [] => false

/-- Node `path.isAbsolute` for the POSIX platform. -/
def isAbsolutePath (s : String) : Bool := isAbsoluteChars s.data

/-- One step of Node's path normalization over already-split segments:
empty segments and `.` are dropped, `..` pops the previous segment
(dropped at the root, i.e. `allowAboveRoot = false` as in `resolve`),
and any other segment is appended. -/
def normStep (acc : List (List Char)) (seg : List Char) : List (List Char) :=
  if seg = [] ∨ seg = ['.'] then acc
  else if seg = ['.', '.'] then acc.dropLast
  else acc ++ [seg]

/-- Node path normalization of an absolute path's segments. -/
def normAbsSegs (segs : List (List Char)) : List (List Char) := segs.foldl normStep []

/-- Node `path.resolve(base, p)` for the POSIX platform, over characters:
if `p` is absolute it is normalized alone, otherwise it is resolved
against `base` (with the working directory modelled as the root, so a
relative `base` behaves as if rooted at `/`).  Joining `base` and `p`
with a separator and splitting the result is the same as concatenating
their split segment lists, which is what is done here. -/
def resolveChars (base p : List Char) : List Char :=
  let segs := if isAbsoluteChars p then splitBy isSlash p
              else splitBy isSlash base ++ splitBy isSlash p
  '/' :: joinBy '/' (normAbsSegs segs)

/-- Node `path.resolve(base, p)` for the POSIX platform. -/
def resolvePath (base p : String) : String := String.mk (resolveChars base.data p.data)

/-- Length of the longest common segment run shared by two segment
lists. -/
def commonLen : List (List Char) → List (List Char) → Nat
  | a :: as, b :: bs => if a = b then commonLen as bs + 1 else 0
  | _, _ => 0

/-- Node `path.relative(f, t)` for the POSIX platform, over characters:
both arguments are resolved (working directory modelled as the root),
the common segment run is removed, one `..` is emitted per remaining
segment of `f`, and the remaining segments of `t` follow. -/
def relativeChars (f t : List Char) : List Char :=
  let fs := normAbsSegs (splitBy isSlash f)
  let ts := normAbsSegs (splitBy isSlash t)
  if fs = ts then []
  else joinBy '/' (List.replicate (fs.length - commonLen fs ts) ['.', '.'] ++ ts.drop (commonLen fs ts))

/-- Node `path.relative(f, t)` for the POSIX platform. -/
def relativePath (f t : String) : String := String.mk (relativeChars f.data t.data)

/-- A normal path segment: non-empty, not `.` or `..`, and free of the
separator. -/
def isNormalSeg (seg : List Char) : Bool :=
  !seg.isEmpty && !(seg == ['.']) && !(seg == ['.', '.']) && seg.all (fun c => !isSlash c)

/-- The segment list of a normalized absolute path, over characters
(the empty list for the bare root `/`). -/
def segsOfAbsChars : List Char → List (List Char)
  | _ :: rest => if rest.isEmpty then [] else splitBy isSlash rest
  | [] => []

/-- The segment list of a normalized absolute path string. -/
def segsOfAbs (s : String) : List (List Char) := segsOfAbsChars s.data

/-- Recognizer for normalized absolute POSIX paths, over characters: a
leading `/` followed by normal segments joined by single separators
(just `/` for the root). -/
def isNormAbsChars : List Char → Bool
  | c :: rest => isSlash c && (rest.isEmpty || (splitBy isSlash rest).all isNormalSeg)
  | [] => false

/-- Recognizer for normalized absolute POSIX path strings. -/
def isNormAbsStr (s : String) : Bool := isNormAbsChars s.data

example : resolvePath "/a/b" "../c" = "/a/c" := by decide
example : resolvePath "/a/b" "/x/./y//z" = "/x/y/z" := by decide
example : resolvePath "/a" "" = "/a" := by decide
example : relativePath "/a/b" "/a/b/c/d" = "c/d" := by decide
example : relativePath "/a/b/c" "/a/b" = ".." := by decide
example : relativePath "/a/x" "/a/y" = "../y" := by decide
example : relativePath "/a" "/a" = "" := by decide
example : resolvePath "/proj" (relativePath "/proj" "/proj/src/a.py") = "/proj/src/a.py" := by decide
example : isNormAbsStr "/proj/src" = true := by decide
example : isNormAbsStr "/proj//src" = false := by decide
example : isNormAbsStr "/proj/" = false := by decide
example : isNormAbsStr "/" = true := by decide
example : isNormAbsStr "proj" = false := by decide

namespace Constants

/-- Modelled from the spec: the FILE asset-kind tag from
`constants/constants.js`, which is outside the provided sources; only
the distinctness of the four tag values matters to the algorithms. -/
def AssetType.FILE : String := "file"

/-- Modelled from the spec: the DIRECTORY asset-kind tag (see
`AssetType.FILE`). -/
def AssetType.DIRECTORY : String := "directory"

/-- Modelled from the spec: the FOLDER asset-kind tag (see
`AssetType.FILE`). -/
def AssetType.FOLDER : String := "folder"

/-- Modelled from the spec: the URL asset-kind tag (see
`AssetType.FILE`). -/
def AssetType.URL : String := "url"

end Constants

/-- Modelled from the spec (§4.6, §6): the well-known id of the
file/directory handler (`services/assets/handlers/file.js`, outside the
provided sources); the algorithms only compare it for equality. -/
def FileHandler.id : String := "StatWrap.FileHandler"

/-- A handler metadata entry `{ id, include, ... }` (§3); fields the
algorithms never read are omitted.  `include` may be absent, which is
the case claim C10 is about. -/
structure MetadataEntry where
  id : Option String
  include? : Option Bool
deriving DecidableEq, Repr

/-- A note record: opaque to the core apart from a stable identity
(modelled by `content`) and the `uri` field that `getAllNotes` rewrites
via the object spread. -/
structure NoteRec where
  content : String
  uri : Option String
deriving DecidableEq, Repr

/-- The attribute map read by `isArchived` and `findEntryPointAssets`. -/
structure Attrs where
  archived : Option Bool
  entrypoint : Option Bool
deriving DecidableEq, Repr

/-- An asset-tree node (§3).  `children` distinguishes an absent
`children` key (`none`) from an empty array (`some []`), because the
source takes different paths for them; metadata entries may be null
inside the array (`m && m.id === handler` in `getHandlerMetadata`). -/
inductive Asset : Type where
  | mk (uri type name : Option String) (attributes : Option Attrs)
       (metadata : Option (List (Option MetadataEntry)))
       (notes : Option (List NoteRec))
       (children : Option (List Asset)) : Asset
deriving Repr

def Asset.uri : Asset → Option String
  | .mk u _ _ _ _ _ _ => u

def Asset.type : Asset → Option String
  | .mk _ t _ _ _ _ _ => t

def Asset.name : Asset → Option String
  | .mk _ _ n _ _ _ _ => n

def Asset.attributes : Asset → Option Attrs
  | .mk _ _ _ a _ _ _ => a

def Asset.metadata : Asset → Option (List (Option MetadataEntry))
  | .mk _ _ _ _ m _ _ => m

def Asset.notes : Asset → Option (List NoteRec)
  | .mk _ _ _ _ _ n _ => n

def Asset.children : Asset → Option (List Asset)
  | .mk _ _ _ _ _ _ c => c

/-- Rebuild a node with a new `uri` (the `asset.uri = ...` assignment of
the source, in value form). -/
def Asset.setUri : Asset → Option String → Asset
  | .mk _ t n a m ns c, u => .mk u t n a m ns c

/-- Structural induction over asset trees: to prove `P` everywhere it
suffices to prove it at each node assuming it for all direct children. -/
theorem Asset.inductionOn {P : Asset → Prop}
    (step : ∀ u t n a m ns cs,
      (∀ l, cs = some l → ∀ c ∈ l, P c) → P (Asset.mk u t n a m ns cs)) :
    ∀ x, P x := by
  have key : ∀ k x, sizeOf x ≤ k → P x := by
    intro k
    induction k with
    | zero =>
      intro x hx
      cases x with
      | mk u t n a m ns cs => simp [Asset.mk.sizeOf_spec] at hx
    | succ k ih =>
      intro x hx
      cases x with
      | mk u t n a m ns cs =>
        apply step
        intro l hl c hc
        apply ih
        have h1 : sizeOf c < sizeOf l := List.sizeOf_lt_of_mem hc
        subst hl
        simp [Asset.mk.sizeOf_spec] at hx
        omega
  exact fun x => key (sizeOf x) x le_rfl

mutual

/-- Boolean equality test on asset trees (needed because `DecidableEq`
cannot be derived for a nested inductive type). -/
def assetBEq : Asset → Asset → Bool
  | .mk u1 t1 n1 a1 m1 ns1 c1, .mk u2 t2 n2 a2 m2 ns2 c2 =>
    u1 == u2 && t1 == t2 && n1 == n2 && a1 == a2 && m1 == m2 && ns1 == ns2 &&
      assetChildrenBEq c1 c2

def assetChildrenBEq : Option (List Asset) → Option (List Asset) → Bool
  | none, none => true
  | some l1, some l2 => assetListBEq l1 l2
  | _, _ => false

def assetListBEq : List Asset → List Asset → Bool
  | [], [] => true
  | a :: as, b :: bs => assetBEq a b && assetListBEq as bs
  | _, _ => false

end

theorem assetBEq_iff : ∀ a b : Asset, assetBEq a b = true ↔ a = b := by
  intro a
  induction a using Asset.inductionOn with
  | step u t n at1 m ns cs ih =>
    intro b
    cases b with
    | mk u2 t2 n2 a2 m2 ns2 cs2 =>
      have hch : assetChildrenBEq cs cs2 = true ↔ cs = cs2 := by
        cases cs with
        | none => cases cs2 <;> simp [assetChildrenBEq]
        | some l =>
          cases cs2 with
          | none => simp [assetChildrenBEq]
          | some l2 =>
            simp only [assetChildrenBEq, Option.some.injEq]
            have hl : ∀ c ∈ l, ∀ x : Asset, assetBEq c x = true ↔ c = x :=
              ih l rfl
            clear ih
            induction l generalizing l2 with
            | nil => cases l2 <;> simp [assetListBEq]
            | cons c rest ihrest =>
              cases l2 with
              | nil => simp [assetListBEq]
              | cons d rest2 =>
                simp only [assetListBEq, Bool.and_eq_true, List.cons.injEq]
                simp only [hl c (by simp) d,
                  ihrest rest2 (fun x hx => hl x (List.mem_cons_of_mem c hx))]
      simp only [assetBEq, Bool.and_eq_true, Asset.mk.injEq, beq_iff_eq, hch]
      tauto

instance : DecidableEq Asset :=
  fun a b => decidable_of_iff _ (assetBEq_iff a b)

mutual

/-- All nodes of an asset tree in pre-order (the node itself, then the
nodes of each child in order). -/
def allNodes : Asset → List Asset
  | .mk u t n a m ns cs => Asset.mk u t n a m ns cs :: allNodesOpt cs

def allNodesOpt : Option (List Asset) → List Asset
  | none => []
  | some l => allNodesList l

def allNodesList : List Asset → List Asset
  | [] => []
  | c :: rest => allNodes c ++ allNodesList rest

end

example :
    allNodes (Asset.mk (some "/r") none none none none none
      (some [Asset.mk (some "/c") none none none none none none])) =
    [Asset.mk (some "/r") none none none none none
      (some [Asset.mk (some "/c") none none none none none none]),
     Asset.mk (some "/c") none none none none none none] := by decide

/-- `getHandlerMetadata(handler, metadata)`: null for an absent or empty
metadata list or an absent/blank handler id, otherwise the first entry
whose `id` equals the handler id (null elements are skipped by the
`m && m.id === handler` predicate), or null when none matches. -/
def getHandlerMetadata (handler : Option String)
    (metadata : Option (List (Option MetadataEntry))) : Option MetadataEntry :=
  match metadata with
  | none => none
  | some ms =>
    if ms.length = 0 then none
    else
      match handler with
      | none => none
      | some h =>
        if jsTrim h == "" then none
        else
          match ms.find? (fun m => match m with
            | none => false
            | some e => e.id == some h) with
          | some (some e) => some e
          | _ => none

/-- JavaScript truthiness of the `include` flag as read by
`!assetMetadata.include` (an absent flag is falsy). -/
def includeTruthy : Option Bool → Bool
  | some true => true
  | _ => false

/-- The drop test of `filterIncludedFileAssets` at a single node:
`const assetMetadata = AssetUtil.getHandlerMetadata(FileHandler.id,
asset.metadata)` followed by `assetMetadata && !assetMetadata.include`
(an entry whose `include` flag is not exactly `true`). -/
def fileExcluded (a : Asset) : Bool :=
  match getHandlerMetadata (some FileHandler.id) a.metadata with
  | some e => !includeTruthy e.include?
  | none => false

mutual

/-- `filterIncludedFileAssets` on a present asset: the node is dropped
when the FileHandler metadata entry exists and its `include` flag is
falsy (`assetMetadata && !assetMetadata.include`, the `fileExcluded`
test); a node without a `children` key is returned as is; otherwise the
children are each filtered recursively and null results removed
(`filter((c) => c)`, modelled by `List.reduceOption`). -/
def filterIncludedAux : Asset → Option Asset
  | .mk u t n a md ns cs =>
    if fileExcluded (.mk u t n a md ns cs) then none
    else
      match cs with
      | none => some (.mk u t n a md ns none)
      | some l => some (.mk u t n a md ns (some (filterIncludedList l).reduceOption))

def filterIncludedList : List Asset → List (Option Asset)
  | [] => []
  | c :: rest => filterIncludedAux c :: filterIncludedList rest

end

/-- `filterIncludedFileAssets(asset)`: null for an absent asset,
otherwise the recursive inclusion filter. -/
def filterIncludedFileAssets (asset : Option Asset) : Option Asset :=
  match asset with
  | none => none
  | some a => filterIncludedAux a

/-- `findChildAssetByUri(asset, uri)`: direct-children-only exact match;
null when the asset, the uri (including the falsy empty string) or the
children array is absent, or when no child matches. -/
def findChildAssetByUri (asset : Option Asset) (uri : Option String) : Option Asset :=
  match asset, uri with
  | some a, some u =>
    if u == "" then none
    else
      match a.children with
      | none => none
      | some l =>
        match l.find? (fun c => c.uri == some u) with
        | some c => some c
        | none => none
  | _, _ => none

mutual

/-- `findDescendantAssetByUri` on a present asset and non-blank uri:
the asset itself when its uri matches, otherwise the first match of a
depth-first search of the children in order. -/
def findDescendantAux : Asset → String → Option Asset
  | .mk u t n a md ns cs, s =>
    if u == some s then some (.mk u t n a md ns cs)
    else
      match cs with
      | none => none
      | some l => findDescendantList l s

def findDescendantList : List Asset → String → Option Asset
  | [], _ => none
  | c :: rest, s =>
    match findDescendantAux c s with
    | some f => some f
    | none => findDescendantList rest s

end

/-- `findDescendantAssetByUri(asset, uri)`: null when the asset or the
uri (including the falsy empty string) is absent, otherwise the
depth-first search. -/
def findDescendantAssetByUri (asset : Option Asset) (uri : Option String) : Option Asset :=
  match asset, uri with
  | some a, some u => if u == "" then none else findDescendantAux a u
  | _, _ => none

/-- JavaScript `s.substring(0, e)` for the uses in the source; `none`
models a `-1` end index, which `substring` clamps to `0`. -/
def jsSubstringTo (s : String) (e : Option Nat) : String :=
  match e with
  | none => ""
  | some k => String.mk (s.data.take k)

/-- The while-loop of `findAllDescendantAssetsByUri`: repeatedly cut the
asset uri at its last separator, collecting every cut (appended at the
back, as `push` does) other than the part of the root uri before its
first separator, until the root uri is reached exactly or no separator
remains.  Each iteration strictly shortens the uri, so the fuel passed
by the wrapper (`length + 1`) can never run out. -/
def chopLoop (rootUri : String) : Nat → String → List String → List String
  | 0, _, acc => acc
  | fuel + 1, assetUri, acc =>
    if assetUri == rootUri then acc
    else
      match lastIdxOf '/' assetUri.data with
      | none => acc
      | some p =>
        let next := String.mk (assetUri.data.take p)
        let acc2 :=
          if next == jsSubstringTo rootUri (jsIndexOf rootUri "/") then acc
          else acc ++ [next]
        chopLoop rootUri fuel next acc2

/-- `findAllDescendantAssetsByUri(assetUri, rootUri)`: the empty list
unless both uris are present (and truthy) and `assetUri` contains
`rootUri` starting at position 0 (`includes` is implied by
`indexOf === 0`); otherwise the collected cuts of the while-loop. -/
def findAllDescendantAssetsByUri (assetUri rootUri : Option String) : List String :=
  match assetUri, rootUri with
  | some au, some ru =>
    if au == "" || ru == "" then []
    else if (jsIndexOf au ru).isSome && jsIndexOf au ru == some 0 then
      chopLoop ru (au.length + 1) au []
    else []
  | _, _ => []

mutual

/-- `getAllNotes` on a present asset: the node's own notes, each copied
with its `uri` field set to the owning node's uri by the object spread,
followed by each child's notes in order (`push` of each child's already
flat array, then a one-level `flat()`). -/
def getAllNotesAux : Asset → List NoteRec
  | .mk u _ _ _ _ ns cs =>
    let notes := match ns with
      | none => []
      | some l => l.map (fun nt => { nt with uri := u })
    match cs with
    | none => notes
    | some l => notes ++ getAllNotesList l

def getAllNotesList : List Asset → List NoteRec
  | [] => []
  | c :: rest => getAllNotesAux c ++ getAllNotesList rest

end

/-- `getAllNotes(asset)`: the empty list for an absent asset, otherwise
the pre-order flattening of all notes. -/
def getAllNotes (asset : Option Asset) : List NoteRec :=
  match asset with
  | none => []
  | some a => getAllNotesAux a

/-- `shouldConvertPath(asset)`: true exactly for present assets of FILE,
DIRECTORY or FOLDER type. -/
def shouldConvertPath (asset : Option Asset) : Bool :=
  match asset with
  | none => false
  | some a =>
    a.type == some Constants.AssetType.FILE ||
    a.type == some Constants.AssetType.DIRECTORY ||
    a.type == some Constants.AssetType.FOLDER

/-- `relativeToAbsolutePath(projectPath, asset)`: null for an absent
asset or uri, otherwise `path.resolve(projectPath, asset.uri)`, which
throws a TypeError when `projectPath` is not a string. -/
def relativeToAbsolutePath (projectPath : Option String) (asset : Option Asset) :
    Except String (Option String) :=
  match asset with
  | none => .ok none
  | some a =>
    match a.uri with
    | none => .ok none
    | some u =>
      match projectPath with
      | none => .error "TypeError"
      | some p => .ok (some (resolvePath p u))

/-- The total core of `relativeToAbsolutePath` under a present (string)
project path; see `relativeToAbsolutePath_eq_core`. -/
def relativeToAbsolutePathCore (p : String) (a : Asset) : Option String :=
  match a.uri with
  | none => none
  | some u => some (resolvePath p u)

/-- `absoluteToRelativePath(projectPath, asset)`: null for an absent
asset or uri or a non-absolute uri, otherwise
`path.relative(projectPath, asset.uri)` with its separators rewritten to
POSIX style (`split(path.sep).join(path.posix.sep)`); `path.relative`
throws a TypeError when `projectPath` is not a string. -/
def absoluteToRelativePath (projectPath : Option String) (asset : Option Asset) :
    Except String (Option String) :=
  match asset with
  | none => .ok none
  | some a =>
    match a.uri with
    | none => .ok none
    | some u =>
      if !isAbsolutePath u then .ok none
      else
        match projectPath with
        | none => .error "TypeError"
        | some p => .ok (some (String.mk (joinBy '/' (splitBy isSlash (relativePath p u).data))))

/-- The total core of `absoluteToRelativePath` under a present (string)
project path; see `absoluteToRelativePath_eq_core`. -/
def absoluteToRelativePathCore (p : String) (a : Asset) : Option String :=
  match a.uri with
  | none => none
  | some u =>
    if !isAbsolutePath u then none
    else some (String.mk (joinBy '/' (splitBy isSlash (relativePath p u).data)))

mutual

/-- `_recursivePathConversion`: replace the uri of every FILE, DIRECTORY
or FOLDER node with the worker's result (computed from the node's
original uri), then convert each child in place.  Its only caller
establishes a non-null project path, under which both workers of the
source are total, so the worker is modelled with the total cores
(`relativeToAbsolutePathCore` / `absoluteToRelativePathCore`; see
`relativeToAbsolutePath_eq_core` and `absoluteToRelativePath_eq_core`). -/
def recursivePathConversionAux (projectPath : String)
    (workerFn : String → Asset → Option String) : Asset → Asset
  | .mk u t n a md ns cs =>
    let u2 := if shouldConvertPath (some (Asset.mk u t n a md ns cs))
              then workerFn projectPath (Asset.mk u t n a md ns cs)
              else u
    match cs with
    | none => .mk u2 t n a md ns none
    | some l => .mk u2 t n a md ns (some (recursivePathConversionList projectPath workerFn l))

def recursivePathConversionList (projectPath : String)
    (workerFn : String → Asset → Option String) : List Asset → List Asset
  | [] => []
  | c :: rest =>
    recursivePathConversionAux projectPath workerFn c ::
      recursivePathConversionList projectPath workerFn rest

end

mutual

/-- The `JSON.parse(JSON.stringify(assets))` deep copy of
`recursivePathConversion`, as a structural rebuild of the tree (every
field of the model is JSON-representable, so the copy is value-faithful;
leaf records are immutable values here). -/
def jsonCopy : Asset → Asset
  | .mk u t n a md ns cs => .mk u t n a md ns (jsonCopyChildren cs)

def jsonCopyChildren : Option (List Asset) → Option (List Asset)
  | none => none
  | some l => some (jsonCopyList l)

def jsonCopyList : List Asset → List Asset
  | [] => []
  | c :: rest => jsonCopy c :: jsonCopyList rest

end

/-- `recursivePathConversion(projectPath, assets, workerFn)`: the input
unchanged when the tree is absent or the project path is
null/undefined, otherwise the recursive conversion of a deep copy. -/
def recursivePathConversion (projectPath : Option String) (assets : Option Asset)
    (workerFn : String → Asset → Option String) : Option Asset :=
  match assets, projectPath with
  | none, _ => none
  | some a, none => some a
  | some a, some p => some (recursivePathConversionAux p workerFn (jsonCopy a))

/-- `recursiveRelativeToAbsolutePath(projectPath, assets)`. -/
def recursiveRelativeToAbsolutePath (projectPath : Option String) (assets : Option Asset) :
    Option Asset :=
  recursivePathConversion projectPath assets relativeToAbsolutePathCore

/-- `recursiveAbsoluteToRelativePath(projectPath, assets)`. -/
def recursiveAbsoluteToRelativePath (projectPath : Option String) (assets : Option Asset) :
    Option Asset :=
  recursivePathConversion projectPath assets absoluteToRelativePathCore

/-- The element loop of `_convertPathForArray`: convert each FILE,
DIRECTORY or FOLDER element's uri in place with the worker, propagating
a thrown exception. -/
def convertArrayGo (projectPath : Option String)
    (workerFn : Option String → Option Asset → Except String (Option String)) :
    List Asset → Except String (List Asset)
  | [] => .ok []
  | a :: rest =>
    if shouldConvertPath (some a) then
      match workerFn projectPath (some a) with
      | .error e => .error e
      | .ok u2 =>
        match convertArrayGo projectPath workerFn rest with
        | .error e => .error e
        | .ok r => .ok (a.setUri u2 :: r)
    else
      match convertArrayGo projectPath workerFn rest with
      | .error e => .error e
      | .ok r => .ok (a :: r)

/-- `_convertPathForArray(projectPath, assets, workerFn)`: the input
when the array is absent (the project path is not validated here),
otherwise the element-wise conversion. -/
def _convertPathForArray (projectPath : Option String) (assets : Option (List Asset))
    (workerFn : Option String → Option Asset → Except String (Option String)) :
    Except String (Option (List Asset)) :=
  match assets with
  | none => .ok none
  | some l =>
    match convertArrayGo projectPath workerFn l with
    | .error e => .error e
    | .ok r => .ok (some r)

/-- `absoluteToRelativePathForArray(projectPath, assets)`. -/
def absoluteToRelativePathForArray (projectPath : Option String)
    (assets : Option (List Asset)) : Except String (Option (List Asset)) :=
  _convertPathForArray projectPath assets absoluteToRelativePath

/-- `relativeToAbsolutePathForArray(projectPath, assets)`. -/
def relativeToAbsolutePathForArray (projectPath : Option String)
    (assets : Option (List Asset)) : Except String (Option (List Asset)) :=
  _convertPathForArray projectPath assets relativeToAbsolutePath

/-- The dual input of the naming utilities: either a raw uri string or
an asset-like object with a `uri` field. -/
inductive UriOrAsset : Type where
  | str (s : String)
  | obj (a : Asset)

/-- `getAssetNameFromUri(item)`: empty string for an absent (or falsy)
input, otherwise the last `path.sep`-separated segment of the uri (an
object's missing or falsy `uri` field is replaced by the empty
string). -/
def getAssetNameFromUri (item : Option UriOrAsset) : String :=
  match item with
  | none => ""
  | some (.str s) =>
    if s == "" then ""
    else String.mk ((splitBy isSlash s.data).getLastD [])
  | some (.obj a) =>
    let uri := match a.uri with
      | some u => if u == "" then "" else u
      | none => ""
    String.mk ((splitBy isSlash uri.data).getLastD [])

/-- JavaScript falsiness of the dual input (`!item`): the empty string
is falsy, an object is always truthy. -/
def uriOrAssetFalsy : UriOrAsset → Bool
  | .str s => s == ""
  | .obj _ => false

/-- The extension of an already-extracted basename: the characters
after its last `.` (`slice(pos + 1)`), or the empty string when the
basename is empty or the last `.` is missing or at position 0
(`basename === '' || pos < 1`). -/
def extOfSeg (basename : List Char) : String :=
  match lastIdxOf '.' basename with
  | none => ""
  | some 0 => ""
  | some (i + 1) => if basename.isEmpty then "" else String.mk (basename.drop (i + 2))

/-- The body of `getExtensionFromUri` on the extracted uri characters:
the final `[\\/]`-separated segment (`split(/[\\/]/).pop()`), then the
extension of that basename. -/
def extFromChars (l : List Char) : String :=
  extOfSeg ((splitBy isAnySlash l).getLastD [])

/-- `getExtensionFromUri(item)`: empty string for an absent (or falsy)
input; otherwise the uri is the string itself or the object's truthy
`uri` field (else the empty string), and the extension is computed by
`extFromChars`. -/
def getExtensionFromUri (item : Option UriOrAsset) : String :=
  match item with
  | none => ""
  | some it =>
    if uriOrAssetFalsy it then ""
    else
      let uri := match it with
        | .str s => s
        | .obj a =>
          match a.uri with
          | some u => if u == "" then "" else u
          | none => ""
      extFromChars uri.data

example :
    findAllDescendantAssetsByUri (some "/proj/src/pkg/mod.py") (some "/proj") =
      ["/proj/src/pkg", "/proj/src", "/proj"] := by decide
example : findAllDescendantAssetsByUri (some "/proj2/x") (some "/proj") = ["/proj2"] := by decide
example : findAllDescendantAssetsByUri (some "/a/b") (some "/zz") = [] := by decide
example : findAllDescendantAssetsByUri none (some "/a") = [] := by decide
example : getExtensionFromUri (some (.str "a/b/file.tar.gz")) = "gz" := by decide
example : getExtensionFromUri (some (.str "a/.gitignore")) = "" := by decide
example : getExtensionFromUri (some (.str "a/noext")) = "" := by decide
example : getExtensionFromUri (some (.str "a\\b.txt")) = "txt" := by decide
example : getAssetNameFromUri (some (.str "/a/b/c.txt")) = "c.txt" := by decide

theorem splitBy_ne_nil (p : Char → Bool) (l : List Char) : splitBy p l ≠ [] := by
  cases l with
  | nil => simp [splitBy]
  | cons c rest =>
    simp only [splitBy]
    cases h : splitBy p rest with
    | nil => simp
    | cons s ss => cases hp : p c <;> simp [hp]

theorem data_mk (l : List Char) : (String.mk l).data = l := rfl

theorem mk_data (s : String) : String.mk s.data = s := rfl

theorem data_append (s t : String) : (s ++ t).data = s.data ++ t.data := rfl

theorem string_mk_inj {l1 l2 : List Char} (h : String.mk l1 = String.mk l2) : l1 = l2 := by
  injection h

theorem joinBy_splitBy (l : List Char) : joinBy '/' (splitBy isSlash l) = l := by
  induction l with
  | nil => rfl
  | cons c rest ih =>
    simp only [splitBy]
    cases h : splitBy isSlash rest with
    | nil => exact absurd h (splitBy_ne_nil _ _)
    | cons s ss =>
      rw [h] at ih
      cases hc : isSlash c with
      | true =>
        have hc2 : c = '/' := by
          have := hc
          simp only [isSlash, beq_iff_eq] at this
          exact this
        subst hc2
        simp only [if_pos rfl]
        cases ss with
        | nil => simpa [joinBy] using ih
        | cons s2 ss2 => simpa [joinBy] using ih
      | false =>
        simp only [hc, Bool.false_eq_true, if_neg, ite_false]
        cases ss with
        | nil => simp only [joinBy] at ih ⊢; simp [ih]
        | cons s2 ss2 => simp only [joinBy] at ih ⊢; simp [ih]

theorem splitBy_of_no_sep (p : Char → Bool) (l : List Char)
    (h : ∀ c ∈ l, p c = false) : splitBy p l = [l] := by
  induction l with
  | nil => rfl
  | cons c rest ih =>
    simp only [splitBy]
    rw [ih (fun x hx => h x (List.mem_cons_of_mem c hx))]
    simp [h c (by simp)]

theorem splitBy_append_sep (p : Char → Bool) (c : Char) (xs ys : List Char)
    (hc : p c = true) (hxs : ∀ x ∈ xs, p x = false) :
    splitBy p (xs ++ c :: ys) = xs :: splitBy p ys := by
  induction xs with
  | nil =>
    simp only [List.nil_append, splitBy]
    cases h : splitBy p ys with
    | nil => exact absurd h (splitBy_ne_nil _ _)
    | cons s ss => simp [hc]
  | cons x xs ih =>
    simp only [List.cons_append, splitBy, List.append_eq]
    rw [ih (fun z hz => hxs z (List.mem_cons_of_mem x hz))]
    simp [hxs x (by simp)]

theorem splitBy_joinBy (parts : List (List Char)) (hne : parts ≠ [])
    (hsep : ∀ s ∈ parts, ∀ c ∈ s, isSlash c = false) :
    splitBy isSlash (joinBy '/' parts) = parts := by
  induction parts with
  | nil => exact absurd rfl hne
  | cons s rest ih =>
    cases rest with
    | nil =>
      simp only [joinBy]
      exact splitBy_of_no_sep _ _ (hsep s (by simp))
    | cons s2 rest2 =>
      simp only [joinBy]
      rw [splitBy_append_sep isSlash '/' s (joinBy '/' (s2 :: rest2)) (by decide)
        (hsep s (by simp))]
      rw [ih (by simp) (fun z hz c hc => hsep z (List.mem_cons_of_mem s hz) c hc)]

theorem normStep_nil (acc : List (List Char)) : normStep acc [] = acc := by
  simp [normStep]

theorem normStep_dotdot (acc : List (List Char)) :
    normStep acc ['.', '.'] = acc.dropLast := by
  simp [normStep]

theorem normStep_normal (acc : List (List Char)) (seg : List Char)
    (h : isNormalSeg seg = true) : normStep acc seg = acc ++ [seg] := by
  have h0 : seg ≠ [] := by
    intro he; subst he; simp [isNormalSeg] at h
  have h1 : seg ≠ ['.'] := by
    intro he; subst he; simp [isNormalSeg] at h
  have h2 : seg ≠ ['.', '.'] := by
    intro he; subst he; simp [isNormalSeg] at h
  simp [normStep, h0, h1, h2]

theorem isNormalSeg_ne_nil {seg : List Char} (h : isNormalSeg seg = true) : seg ≠ [] := by
  intro he; subst he; simp [isNormalSeg] at h

theorem isNormalSeg_no_slash {seg : List Char} (h : isNormalSeg seg = true) :
    ∀ c ∈ seg, isSlash c = false := by
  simp only [isNormalSeg, Bool.and_eq_true, List.all_eq_true] at h
  intro c hc
  have := h.2 c hc
  simpa using this

theorem foldl_normStep_normal (ys acc : List (List Char))
    (h : ∀ s ∈ ys, isNormalSeg s = true) :
    List.foldl normStep acc ys = acc ++ ys := by
  induction ys generalizing acc with
  | nil => simp
  | cons y ys ih =>
    simp only [List.foldl_cons]
    rw [normStep_normal acc y (h y (by simp)),
      ih (acc ++ [y]) (fun s hs => h s (List.mem_cons_of_mem y hs))]
    simp

theorem foldl_normStep_dotdot (k : Nat) (acc : List (List Char)) :
    List.foldl normStep acc (List.replicate k ['.', '.']) = acc.take (acc.length - k) := by
  induction k generalizing acc with
  | zero => simp
  | succ k ih =>
    simp only [List.replicate_succ, List.foldl_cons, normStep_dotdot]
    rw [ih, List.dropLast_eq_take, List.take_take, List.length_take]
    congr 1
    omega

theorem commonLen_le_left (a : List (List Char)) : ∀ b, commonLen a b ≤ a.length := by
  induction a with
  | nil => intro b; simp [commonLen]
  | cons x xs ih =>
    intro b
    cases b with
    | nil => simp [commonLen]
    | cons y ys =>
      simp only [commonLen, List.length_cons]
      split
      · exact Nat.succ_le_succ (ih ys)
      · simp

theorem commonLen_le_right (a : List (List Char)) : ∀ b, commonLen a b ≤ b.length := by
  induction a with
  | nil => intro b; simp [commonLen]
  | cons x xs ih =>
    intro b
    cases b with
    | nil => simp [commonLen]
    | cons y ys =>
      simp only [commonLen, List.length_cons]
      split
      · exact Nat.succ_le_succ (ih ys)
      · simp

theorem take_commonLen (a : List (List Char)) :
    ∀ b, a.take (commonLen a b) = b.take (commonLen a b) := by
  induction a with
  | nil => intro b; simp [commonLen]
  | cons x xs ih =>
    intro b
    cases b with
    | nil => simp [commonLen]
    | cons y ys =>
      simp only [commonLen]
      split
      · next heq => simp [List.take_succ_cons, heq, ih ys]
      · simp

theorem splitBy_cons_sep (p : Char → Bool) (c : Char) (rest : List Char)
    (hc : p c = true) : splitBy p (c :: rest) = [] :: splitBy p rest := by
  simp only [splitBy]
  cases h : splitBy p rest with
  | nil => exact absurd h (splitBy_ne_nil _ _)
  | cons s ss => simp [hc]

theorem normAbs_chars (l : List Char) (h : isNormAbsChars l = true) :
    l = '/' :: joinBy '/' (segsOfAbsChars l) ∧
    normAbsSegs (splitBy isSlash l) = segsOfAbsChars l ∧
    ∀ seg ∈ segsOfAbsChars l, isNormalSeg seg = true := by
  cases l with
  | nil => simp [isNormAbsChars] at h
  | cons c rest =>
    simp only [isNormAbsChars, Bool.and_eq_true, Bool.or_eq_true] at h
    obtain ⟨hc, hrest⟩ := h
    have hc2 : c = '/' := by simpa [isSlash, beq_iff_eq] using hc
    subst hc2
    cases rest with
    | nil => exact ⟨by decide, by decide, by decide⟩
    | cons r rest2 =>
      have hall : (splitBy isSlash (r :: rest2)).all isNormalSeg = true := by
        rcases hrest with hE | hA
        · simp at hE
        · exact hA
      have hsegs : segsOfAbsChars ('/' :: r :: rest2) = splitBy isSlash (r :: rest2) := by
        simp [segsOfAbsChars]
      refine ⟨?_, ?_, ?_⟩
      · rw [hsegs, joinBy_splitBy]
      · rw [hsegs]
        rw [splitBy_cons_sep isSlash '/' (r :: rest2) (by decide)]
        simp only [normAbsSegs, List.foldl_cons, normStep_nil]
        have := foldl_normStep_normal (splitBy isSlash (r :: rest2)) []
          (fun s hs => List.all_eq_true.mp hall s hs)
        simpa using this
      · rw [hsegs]
        exact fun seg hs => List.all_eq_true.mp hall seg hs

theorem isAbsoluteChars_joinBy (q : List Char) (qs : List (List Char))
    (hq : q ≠ []) (hqc : ∀ c ∈ q, isSlash c = false) :
    isAbsoluteChars (joinBy '/' (q :: qs)) = false := by
  obtain ⟨qc, qrest, rfl⟩ := List.exists_cons_of_ne_nil hq
  have h1 : isSlash qc = false := hqc qc (by simp)
  cases qs with
  | nil => simpa [joinBy, isAbsoluteChars, isSlash] using h1
  | cons b bs => simpa [joinBy, isAbsoluteChars, isSlash] using h1

theorem normAbsSegs_append (xs ys : List (List Char)) :
    normAbsSegs (xs ++ ys) = List.foldl normStep (normAbsSegs xs) ys := by
  simp [normAbsSegs, List.foldl_append]

theorem relative_resolve_roundtrip (R u : String)
    (hR : isNormAbsStr R = true) (hu : isNormAbsStr u = true) :
    resolveChars R.data (relativeChars R.data u.data) = u.data := by
  obtain ⟨hRdata, hRsegs, hRnorm⟩ := normAbs_chars R.data hR
  obtain ⟨hudata, husegs, hunorm⟩ := normAbs_chars u.data hu
  by_cases heq : normAbsSegs (splitBy isSlash R.data) = normAbsSegs (splitBy isSlash u.data)
  · have hrel : relativeChars R.data u.data = [] := by
      simp only [relativeChars]
      rw [if_pos heq]
    rw [hrel]
    have hres : resolveChars R.data [] =
        '/' :: joinBy '/' (normAbsSegs (splitBy isSlash R.data ++ [[]])) := rfl
    rw [hres, normAbsSegs_append, hRsegs]
    simp only [List.foldl_cons, List.foldl_nil, normStep_nil]
    have hru : segsOfAbsChars R.data = segsOfAbsChars u.data := by
      rw [← hRsegs, ← husegs]; exact heq
    rw [hru, ← hudata]
  · have hcp1 : commonLen (segsOfAbsChars R.data) (segsOfAbsChars u.data) ≤
        (segsOfAbsChars R.data).length := commonLen_le_left _ _
    have hcp2 : commonLen (segsOfAbsChars R.data) (segsOfAbsChars u.data) ≤
        (segsOfAbsChars u.data).length := commonLen_le_right _ _
    have hne2 : segsOfAbsChars R.data ≠ segsOfAbsChars u.data := by
      rw [hRsegs, husegs] at heq
      exact heq
    have hrel : relativeChars R.data u.data =
        joinBy '/' (List.replicate
            ((segsOfAbsChars R.data).length -
              commonLen (segsOfAbsChars R.data) (segsOfAbsChars u.data)) ['.', '.'] ++
          (segsOfAbsChars u.data).drop
            (commonLen (segsOfAbsChars R.data) (segsOfAbsChars u.data))) := by
      simp only [relativeChars]
      rw [if_neg heq, hRsegs, husegs]
    set rs := segsOfAbsChars R.data with hrsdef
    set us := segsOfAbsChars u.data with husdef
    set cp := commonLen rs us with hcpdef
    have hpartsne : List.replicate (rs.length - cp) ['.', '.'] ++ us.drop cp ≠ [] := by
      intro hnil
      rw [List.append_eq_nil] at hnil
      obtain ⟨h1, h2⟩ := hnil
      have hk : rs.length - cp = 0 := by
        have := congrArg List.length h1
        simpa using this
      have hd : us.length ≤ cp := by
        have := congrArg List.length h2
        simp [List.length_drop] at this
        omega
      have hcpr : cp = rs.length := by omega
      have hcpu : cp = us.length := by omega
      apply hne2
      calc rs = rs.take cp := by rw [hcpr, List.take_length]
        _ = us.take cp := take_commonLen rs us
        _ = us := by rw [hcpu, List.take_length]
    have hpartsfree : ∀ s ∈ List.replicate (rs.length - cp) ['.', '.'] ++ us.drop cp,
        ∀ c ∈ s, isSlash c = false := by
      intro s hs
      rcases List.mem_append.mp hs with hrep | hdrop
      · have hs2 : s = ['.', '.'] := List.eq_of_mem_replicate hrep
        subst hs2
        decide
      · exact isNormalSeg_no_slash (hunorm s (List.mem_of_mem_drop hdrop))
    obtain ⟨q, qs, hqqs⟩ :=
      List.exists_cons_of_ne_nil hpartsne
    have hqmem : q ∈ List.replicate (rs.length - cp) ['.', '.'] ++ us.drop cp := by
      rw [hqqs]; simp
    have hqne : q ≠ [] := by
      rcases List.mem_append.mp hqmem with hrep | hdrop
      · have hs2 : q = ['.', '.'] := List.eq_of_mem_replicate hrep
        subst hs2; decide
      · exact isNormalSeg_ne_nil (hunorm q (List.mem_of_mem_drop hdrop))
    have habs : isAbsoluteChars (joinBy '/'
        (List.replicate (rs.length - cp) ['.', '.'] ++ us.drop cp)) = false := by
      rw [hqqs]
      exact isAbsoluteChars_joinBy q qs hqne (hpartsfree q hqmem)
    rw [hrel]
    have hres : ∀ p2 : List Char, isAbsoluteChars p2 = false →
        resolveChars R.data p2 =
          '/' :: joinBy '/' (normAbsSegs (splitBy isSlash R.data ++ splitBy isSlash p2)) := by
      intro p2 hp2
      simp only [resolveChars, hp2, Bool.false_eq_true, ite_false]
    rw [hres _ habs,
      splitBy_joinBy _ hpartsne hpartsfree,
      normAbsSegs_append, hRsegs, List.foldl_append,
      foldl_normStep_dotdot]
    have harith : rs.length - (rs.length - cp) = cp := by omega
    rw [harith,
      foldl_normStep_normal _ _ (fun s hs => hunorm s (List.mem_of_mem_drop hs)),
      take_commonLen rs us, List.take_append_drop, ← hudata]

theorem sepRejoin_collapse (s : String) :
    String.mk (joinBy '/' (splitBy isSlash s.data)) = s := by
  rw [joinBy_splitBy]

theorem resolvePath_relativePath (R u : String)
    (hR : isNormAbsStr R = true) (hu : isNormAbsStr u = true) :
    resolvePath R (relativePath R u) = u := by
  have h1 : (relativePath R u).data = relativeChars R.data u.data := rfl
  rw [resolvePath, h1, relative_resolve_roundtrip R u hR hu]

theorem isAbsolutePath_of_norm (u : String) (h : isNormAbsStr u = true) :
    isAbsolutePath u = true := by
  obtain ⟨hdata, _, _⟩ := normAbs_chars u.data h
  rw [isAbsolutePath, hdata]
  rfl

theorem relativeToAbsolutePath_eq_core (p : String) (a : Asset) :
    relativeToAbsolutePath (some p) (some a) = .ok (relativeToAbsolutePathCore p a) := by
  cases a with
  | mk u t n at1 md ns cs => cases u <;> rfl

theorem absoluteToRelativePath_eq_core (p : String) (a : Asset) :
    absoluteToRelativePath (some p) (some a) = .ok (absoluteToRelativePathCore p a) := by
  cases a with
  | mk u t n at1 md ns cs =>
    cases u with
    | none => rfl
    | some s =>
      simp only [absoluteToRelativePath, absoluteToRelativePathCore, Asset.uri]
      cases h : isAbsolutePath s <;> simp [h]

/-- The per-type test inside `shouldConvertPath`, isolated so that the
condition can be rewritten uniformly across converted copies of a node
(whose `type` field is unchanged). -/
def typeConvertible (t : Option String) : Bool :=
  t == some Constants.AssetType.FILE || t == some Constants.AssetType.DIRECTORY ||
    t == some Constants.AssetType.FOLDER

theorem shouldConvertPath_mk (u t n : Option String) (a : Option Attrs)
    (md : Option (List (Option MetadataEntry))) (ns : Option (List NoteRec))
    (cs : Option (List Asset)) :
    shouldConvertPath (some (.mk u t n a md ns cs)) = typeConvertible t := rfl

theorem self_mem_allNodes (a : Asset) : a ∈ allNodes a := by
  cases a with
  | mk u t n at1 md ns cs =>
    rw [allNodes]
    exact List.mem_cons_self _ _

theorem mem_allNodesList {l : List Asset} {b : Asset} :
    b ∈ allNodesList l ↔ ∃ c ∈ l, b ∈ allNodes c := by
  induction l with
  | nil => simp [allNodesList]
  | cons x xs ih =>
    rw [allNodesList]
    constructor
    · intro hb
      rcases List.mem_append.mp hb with h1 | h2
      · exact ⟨x, by simp, h1⟩
      · obtain ⟨c, hc1, hc2⟩ := ih.mp h2
        exact ⟨c, List.mem_cons_of_mem x hc1, hc2⟩
    · rintro ⟨c, hc1, hc2⟩
      rcases List.mem_cons.mp hc1 with h1 | h2
      · subst h1; exact List.mem_append_left _ hc2
      · exact List.mem_append_right _ (ih.mpr ⟨c, h2, hc2⟩)

theorem mem_allNodes_children {b c : Asset} {l : List Asset}
    (hc : c ∈ l) (hb : b ∈ allNodes c) (u t n : Option String) (a : Option Attrs)
    (md : Option (List (Option MetadataEntry))) (ns : Option (List NoteRec)) :
    b ∈ allNodes (Asset.mk u t n a md ns (some l)) := by
  rw [allNodes, allNodesOpt]
  exact List.mem_cons_of_mem _ (mem_allNodesList.mpr ⟨c, hc, hb⟩)

theorem jsonCopy_id : ∀ a : Asset, jsonCopy a = a := by
  intro a
  induction a using Asset.inductionOn with
  | step u t n at1 md ns cs ih =>
    cases cs with
    | none => rfl
    | some l =>
      have hmem := ih l rfl
      have hl : jsonCopyList l = l := by
        clear ih
        induction l with
        | nil => rfl
        | cons c rest ihr =>
          rw [jsonCopyList, hmem c (by simp),
            ihr (fun x hx => hmem x (List.mem_cons_of_mem c hx))]
      rw [jsonCopy, jsonCopyChildren, hl]

/-- The node-wise relation established by `_recursivePathConversion`
between the pre-order node lists of the input and the output: the type
is unchanged and the uri is the worker's result exactly on convertible
nodes. -/
def convRel (p : String) (w : String → Asset → Option String) (o m : Asset) : Prop :=
  m.uri = (if shouldConvertPath (some o) = true then w p o else o.uri) ∧ m.type = o.type

theorem conv_forall₂ (p : String) (w : String → Asset → Option String) :
    ∀ a : Asset, List.Forall₂ (convRel p w)
      (allNodes a) (allNodes (recursivePathConversionAux p w a)) := by
  intro a
  induction a using Asset.inductionOn with
  | step u t n at1 md ns cs ih =>
    cases cs with
    | none =>
      simp only [recursivePathConversionAux, allNodes, allNodesOpt]
      exact List.Forall₂.cons ⟨rfl, rfl⟩ List.Forall₂.nil
    | some l =>
      have hmem := ih l rfl
      simp only [recursivePathConversionAux, allNodes, allNodesOpt]
      refine List.Forall₂.cons ⟨rfl, rfl⟩ ?_
      clear ih
      induction l with
      | nil => exact List.Forall₂.nil
      | cons c rest ihr =>
        rw [allNodesList, recursivePathConversionList, allNodesList]
        exact List.rel_append (hmem c (by simp))
          (ihr (fun x hx => hmem x (List.mem_cons_of_mem c hx)))

theorem forall₂_exists_left {R : Asset → Asset → Prop} :
    ∀ {l1 l2 : List Asset}, List.Forall₂ R l1 l2 → ∀ b ∈ l2, ∃ o ∈ l1, R o b := by
  intro l1 l2 h
  induction h with
  | nil => intro b hb; cases hb
  | @cons a b as bs hab htail ih =>
    intro x hx
    rcases List.mem_cons.mp hx with h1 | h2
    · subst h1; exact ⟨a, by simp, hab⟩
    · obtain ⟨o, ho1, ho2⟩ := ih x h2
      exact ⟨o, List.mem_cons_of_mem a ho1, ho2⟩

theorem recList_roundtrip (R : String) :
    ∀ l : List Asset,
      (∀ c ∈ l, recursivePathConversionAux R relativeToAbsolutePathCore
          (recursivePathConversionAux R absoluteToRelativePathCore c) = c) →
      recursivePathConversionList R relativeToAbsolutePathCore
        (recursivePathConversionList R absoluteToRelativePathCore l) = l := by
  intro l
  induction l with
  | nil => intro _; rfl
  | cons c rest ih =>
    intro h
    rw [recursivePathConversionList, recursivePathConversionList,
      h c (by simp), ih (fun x hx => h x (List.mem_cons_of_mem c hx))]

theorem absCore_of_norm (R : String) (s : String) (hs : isNormAbsStr s = true)
    (t n : Option String) (at1 : Option Attrs) (md : Option (List (Option MetadataEntry)))
    (ns : Option (List NoteRec)) (cs : Option (List Asset)) :
    absoluteToRelativePathCore R (Asset.mk (some s) t n at1 md ns cs) =
      some (relativePath R s) := by
  simp only [absoluteToRelativePathCore, Asset.uri, isAbsolutePath_of_norm s hs,
    Bool.not_true, Bool.false_eq_true, ite_false, sepRejoin_collapse]

theorem recAux_roundtrip (R : String) (hR : isNormAbsStr R = true) :
    ∀ a : Asset,
      (∀ b ∈ allNodes a, shouldConvertPath (some b) = true →
        ∃ s, b.uri = some s ∧ isNormAbsStr s = true) →
      recursivePathConversionAux R relativeToAbsolutePathCore
        (recursivePathConversionAux R absoluteToRelativePathCore a) = a := by
  intro a
  induction a using Asset.inductionOn with
  | step u t n at1 md ns cs ih =>
    intro hyp
    have hnodeuri : typeConvertible t = true → ∃ s, u = some s ∧ isNormAbsStr s = true := by
      intro htc
      have := hyp _ (self_mem_allNodes (Asset.mk u t n at1 md ns cs))
        (by rw [shouldConvertPath_mk]; exact htc)
      simpa [Asset.uri] using this
    cases cs with
    | none =>
      simp only [recursivePathConversionAux, shouldConvertPath_mk]
      by_cases htc : typeConvertible t = true
      · simp only [if_pos htc]
        obtain ⟨s, hu, hs⟩ := hnodeuri htc
        subst hu
        rw [absCore_of_norm R s hs]
        simp only [relativeToAbsolutePathCore, Asset.uri]
        rw [resolvePath_relativePath R s hR hs]
      · simp only [if_neg htc]
    | some l =>
      have hchild := recList_roundtrip R l (fun c hc =>
        ih l rfl c hc (fun b hb hcv =>
          hyp b (mem_allNodes_children hc hb u t n at1 md ns) hcv))
      simp only [recursivePathConversionAux, shouldConvertPath_mk]
      by_cases htc : typeConvertible t = true
      · simp only [if_pos htc]
        obtain ⟨s, hu, hs⟩ := hnodeuri htc
        subst hu
        rw [absCore_of_norm R s hs]
        simp only [relativeToAbsolutePathCore, Asset.uri]
        rw [resolvePath_relativePath R s hR hs, hchild]
      · simp only [if_neg htc, hchild]

/-- Hypothesis recognizer for C1: every FILE/DIRECTORY/FOLDER node
carries a normalized absolute uri whose segment list extends that of
the project root (the uri lies under the root). -/
def allConvNormUnder (R : String) (a : Asset) : Bool :=
  (allNodes a).all (fun b =>
    !shouldConvertPath (some b) ||
      (match b.uri with
       | some s => isNormAbsStr s && (segsOfAbs R).isPrefixOf (segsOfAbs s)
       | none => false))

/-- Hypothesis recognizer for C9: every FILE/DIRECTORY/FOLDER node
carries a present but non-absolute (relative) uri. -/
def allConvRelative (a : Asset) : Bool :=
  (allNodes a).all (fun b =>
    !shouldConvertPath (some b) ||
      (match b.uri with
       | some s => !isAbsolutePath s
       | none => false))

/-- C1: for every asset tree whose FILE/DIRECTORY/FOLDER nodes carry
absolute (normalized) uris under a project root `R`, applying
`recursiveAbsoluteToRelativePath` with `R` and then
`recursiveRelativeToAbsolutePath` with the same `R` reproduces the
original tree — in particular every FILE/DIRECTORY/FOLDER node's uri —
and the first conversion never changes the uri of a URL-typed node (the
second cannot either, since the overall result equals the original). -/
theorem claim_C1 (R : String) (a : Asset)
    (hR : isNormAbsStr R = true) (ha : allConvNormUnder R a = true) :
    ∃ mid, recursiveAbsoluteToRelativePath (some R) (some a) = some mid ∧
      recursiveRelativeToAbsolutePath (some R) (some mid) = some a ∧
      List.Forall₂ (fun o m => o.type = some Constants.AssetType.URL → m.uri = o.uri)
        (allNodes a) (allNodes mid) := by
  have hyp : ∀ b ∈ allNodes a, shouldConvertPath (some b) = true →
      ∃ s, b.uri = some s ∧ isNormAbsStr s = true := by
    intro b hb hcv
    have hball := List.all_eq_true.mp ha b hb
    rw [hcv] at hball
    simp only [Bool.not_true, Bool.false_or] at hball
    cases hu : b.uri with
    | none => rw [hu] at hball; simp at hball
    | some s =>
      rw [hu] at hball
      simp only [Bool.and_eq_true] at hball
      exact ⟨s, rfl, hball.1⟩
  refine ⟨recursivePathConversionAux R absoluteToRelativePathCore a, ?_, ?_, ?_⟩
  · simp only [recursiveAbsoluteToRelativePath, recursivePathConversion, jsonCopy_id]
  · simp only [recursiveRelativeToAbsolutePath, recursivePathConversion, jsonCopy_id]
    rw [recAux_roundtrip R hR a hyp]
  · refine (conv_forall₂ R absoluteToRelativePathCore a).imp ?_
    intro o m hr
    intro hurl
    obtain ⟨h1, _⟩ := hr
    have hsc : shouldConvertPath (some o) = false := by
      cases o with
      | mk uu tt nn aa mm nn2 cc =>
        rw [shouldConvertPath_mk]
        have htt : tt = some Constants.AssetType.URL := hurl
        rw [htt]
        decide
    rw [h1, hsc]
    simp

/-- C5: `recursivePathConversion` consumes only a structural deep copy
of its input tree, and that copy is value-identical to the input, so
the caller's tree value is unchanged by any conversion (reference
distinctness, a heap notion, is outside this value-level model). -/
theorem claim_C5 (a : Asset) :
    jsonCopy a = a ∧
      ∀ (p : String) (w : String → Asset → Option String),
        recursivePathConversion (some p) (some a) w =
          some (recursivePathConversionAux p w a) := by
  refine ⟨jsonCopy_id a, ?_⟩
  intro p w
  simp only [recursivePathConversion, jsonCopy_id]

/-- C9: converting a tree whose FILE/DIRECTORY/FOLDER nodes already
carry relative (present, non-absolute) uris with
`recursiveAbsoluteToRelativePath` does not leave those uris unchanged:
every such node of the result has uri null, because the per-node
converter's guard result (null) is written back into the copied node's
uri field. -/
theorem claim_C9 (p : String) (a : Asset) (ha : allConvRelative a = true) :
    ∃ r, recursiveAbsoluteToRelativePath (some p) (some a) = some r ∧
      ∀ b ∈ allNodes r, shouldConvertPath (some b) = true → b.uri = none := by
  refine ⟨recursivePathConversionAux p absoluteToRelativePathCore a, ?_, ?_⟩
  · simp only [recursiveAbsoluteToRelativePath, recursivePathConversion, jsonCopy_id]
  · intro b hb hcv
    obtain ⟨o, ho, hrel⟩ :=
      forall₂_exists_left (conv_forall₂ p absoluteToRelativePathCore a) b hb
    obtain ⟨h1, h2⟩ := hrel
    have hcvo : shouldConvertPath (some o) = true := by
      cases o with
      | mk uu tt nn aa mm nn2 cc =>
        cases b with
        | mk ub tb nb ab mb nb2 cb =>
          rw [shouldConvertPath_mk]
          rw [shouldConvertPath_mk] at hcv
          have htb : tb = tt := h2
          rw [← htb]
          exact hcv
    rw [h1, if_pos hcvo]
    have hball := List.all_eq_true.mp ha o ho
    rw [hcvo] at hball
    simp only [Bool.not_true, Bool.false_or] at hball
    cases hu : o.uri with
    | none => rw [hu] at hball; simp at hball
    | some s =>
      rw [hu] at hball
      simp only [Bool.not_eq_true'] at hball
      cases o with
      | mk uu tt nn aa mm nn2 cc =>
        have huu : uu = some s := hu
        subst huu
        simp only [absoluteToRelativePathCore, Asset.uri, hball, Bool.not_false, ite_true]

/-- Concrete tree for the C1 witness: a project directory with a
subdirectory, a file and an external URL resource. -/
def exTreeC1 : Asset :=
  .mk (some "/proj") (some Constants.AssetType.DIRECTORY) none none none none
    (some [.mk (some "/proj/src") (some Constants.AssetType.DIRECTORY) none none none none
        (some [.mk (some "/proj/src/a.py") (some Constants.AssetType.FILE)
            none none none none none]),
      .mk (some "https://x.org") (some Constants.AssetType.URL) (some "X")
        none none none none])

theorem claim_C1_witness :
    ∃ mid, recursiveAbsoluteToRelativePath (some "/proj") (some exTreeC1) = some mid ∧
      recursiveRelativeToAbsolutePath (some "/proj") (some mid) = some exTreeC1 ∧
      List.Forall₂ (fun o m => o.type = some Constants.AssetType.URL → m.uri = o.uri)
        (allNodes exTreeC1) (allNodes mid) :=
  claim_C1 "/proj" exTreeC1 (by decide) (by decide)

/-- Concrete tree for the C9 witness: relative uris on the convertible
nodes, plus a URL node. -/
def exTreeC9 : Asset :=
  .mk (some "src") (some Constants.AssetType.DIRECTORY) none none none none
    (some [.mk (some "src/a.py") (some Constants.AssetType.FILE) none none none none none,
      .mk (some "https://y.org") (some Constants.AssetType.URL) none none none none none])

theorem claim_C9_witness :
    ∃ r, recursiveAbsoluteToRelativePath (some "/proj") (some exTreeC9) = some r ∧
      ∀ b ∈ allNodes r, shouldConvertPath (some b) = true → b.uri = none :=
  claim_C9 "/proj" exTreeC9 (by decide)

theorem filterAux_eq (u t n : Option String) (at1 : Option Attrs)
    (md : Option (List (Option MetadataEntry))) (ns : Option (List NoteRec))
    (cs : Option (List Asset)) :
    filterIncludedAux (Asset.mk u t n at1 md ns cs) =
      if fileExcluded (Asset.mk u t n at1 md ns cs) = true then none
      else match cs with
        | none => some (Asset.mk u t n at1 md ns none)
        | some l => some (Asset.mk u t n at1 md ns
            (some (filterIncludedList l).reduceOption)) := by
  rw [filterIncludedAux.eq_def]

theorem filterAux_none_iff (a : Asset) :
    filterIncludedAux a = none ↔ fileExcluded a = true := by
  cases a with
  | mk u t n at1 md ns cs =>
    rw [filterAux_eq]
    by_cases hx : fileExcluded (Asset.mk u t n at1 md ns cs) = true
    · simp [hx]
    · simp only [if_neg hx]
      constructor
      · intro h
        cases cs <;> simp at h
      · intro h
        exact absurd h hx

theorem filterIncludedList_eq_map (l : List Asset) :
    filterIncludedList l = l.map (fun c => filterIncludedAux c) := by
  induction l with
  | nil => rfl
  | cons c rest ih => rw [filterIncludedList, ih, List.map_cons]

theorem filterAux_some (a : Asset) (hk : fileExcluded a = false) :
    filterIncludedAux a =
      some (Asset.mk a.uri a.type a.name a.attributes a.metadata a.notes
        (a.children.map (fun l => (l.map (fun c => filterIncludedAux c)).reduceOption))) := by
  cases a with
  | mk u t n at1 md ns cs =>
    rw [filterAux_eq, if_neg (by simp [hk])]
    cases cs with
    | none =>
      simp [Asset.uri, Asset.type, Asset.name, Asset.attributes, Asset.metadata,
        Asset.notes, Asset.children]
    | some l =>
      simp [Asset.uri, Asset.type, Asset.name, Asset.attributes, Asset.metadata,
        Asset.notes, Asset.children, filterIncludedList_eq_map]

theorem filterAux_subtree_included :
    ∀ a : Asset, ∀ r, filterIncludedAux a = some r →
      ∀ b ∈ allNodes r, fileExcluded b = false := by
  intro a
  induction a using Asset.inductionOn with
  | step u t n at1 md ns cs ih =>
    intro r hr b hb
    have hk : fileExcluded (Asset.mk u t n at1 md ns cs) = false := by
      by_cases hx : fileExcluded (Asset.mk u t n at1 md ns cs) = true
      · rw [(filterAux_none_iff _).mpr hx] at hr
        cases hr
      · simpa using hx
    rw [filterAux_some _ hk] at hr
    injection hr with hr2
    subst hr2
    cases cs with
    | none =>
      rw [allNodes] at hb
      simp only [Asset.children, Option.map_none, allNodesOpt] at hb
      rcases List.mem_cons.mp hb with h1 | h2
      · subst h1
        simpa [fileExcluded, Asset.metadata] using hk
      · cases h2
    | some l =>
      rw [allNodes] at hb
      simp only [Asset.children, Option.map_some, allNodesOpt] at hb
      rcases List.mem_cons.mp hb with h1 | h2
      · subst h1
        simpa [fileExcluded, Asset.metadata] using hk
      · obtain ⟨c2, hc2, hbc2⟩ := mem_allNodesList.mp h2
        have hsome : some c2 ∈ l.map (fun c => filterIncludedAux c) :=
          List.reduceOption_mem_iff.mp hc2
        obtain ⟨c, hc, hceq⟩ := List.mem_map.mp hsome
        exact ih l rfl c hc c2 hceq b hbc2

theorem getHandlerMetadata_found {h : String} {md : Option (List (Option MetadataEntry))}
    {e : MetadataEntry} (he : getHandlerMetadata (some h) md = some e) :
    e.id = some h ∧ ∃ ms, md = some ms ∧ some e ∈ ms := by
  cases md with
  | none => simp [getHandlerMetadata] at he
  | some ms =>
    by_cases hlen : ms.length = 0
    · simp [getHandlerMetadata, hlen] at he
    · by_cases htrim : (jsTrim h == "") = true
      · simp [getHandlerMetadata, hlen, htrim] at he
      · have htrim2 : (jsTrim h == "") = false := by simpa using htrim
        simp only [getHandlerMetadata, hlen, if_neg hlen, htrim2, Bool.false_eq_true,
          ite_false] at he
        cases hf : ms.find? (fun m => match m with
            | none => false
            | some e2 => e2.id == some h) with
        | none => rw [hf] at he; cases he
        | some mo =>
          rw [hf] at he
          have hp := List.find?_some hf
          have hmem := List.mem_of_find?_eq_some hf
          cases mo with
          | none => simp at hp
          | some e2 =>
            simp only [beq_iff_eq] at hp
            cases he
            exact ⟨hp, ms, rfl, hmem⟩

/-- Well-formedness of the metadata shape from the data model (§3):
every FileHandler metadata entry anywhere in the tree carries a present
boolean `include` flag. -/
def wfIncludeMeta (a : Asset) : Bool :=
  (allNodes a).all (fun b =>
    (b.metadata.getD []).all (fun mo =>
      match mo with
      | none => true
      | some e => !(e.id == some FileHandler.id) || e.include?.isSome))

/-- C3: under the data-model metadata shape (a present boolean `include`
flag on FileHandler entries), `filterIncludedFileAssets` drops a node
(with its whole subtree) exactly when the FileHandler entry found on it
has `include = false`, regardless of the descendants; a node with no
FileHandler entry survives; and a surviving node keeps its fields while
its children are the filtered survivors in their original order (the
missing-flag case outside this shape is settled by C10). -/
theorem claim_C3 (a : Asset) (hwf : wfIncludeMeta a = true) :
    (filterIncludedFileAssets (some a) = none ↔
      ∃ e, getHandlerMetadata (some FileHandler.id) a.metadata = some e ∧
        e.include? = some false) ∧
    (getHandlerMetadata (some FileHandler.id) a.metadata = none →
      ∃ r, filterIncludedFileAssets (some a) = some r) ∧
    (∀ r, filterIncludedFileAssets (some a) = some r →
      r.uri = a.uri ∧ r.type = a.type ∧ r.metadata = a.metadata ∧ r.notes = a.notes ∧
      r.children = a.children.map (fun l =>
        (l.map (fun c => filterIncludedFileAssets (some c))).reduceOption) ∧
      ∀ b ∈ allNodes r, fileExcluded b = false) := by
  have hfa : filterIncludedFileAssets (some a) = filterIncludedAux a := rfl
  refine ⟨?_, ?_, ?_⟩
  · rw [hfa, filterAux_none_iff]
    constructor
    · intro hex
      cases hgm : getHandlerMetadata (some FileHandler.id) a.metadata with
      | none =>
        rw [fileExcluded, hgm] at hex
        simp at hex
      | some e =>
        refine ⟨e, rfl, ?_⟩
        rw [fileExcluded, hgm] at hex
        have hex2 : includeTruthy e.include? = false := by simpa using hex
        obtain ⟨hid, ms, hms, hmem⟩ := getHandlerMetadata_found hgm
        have hwfn := List.all_eq_true.mp
          (List.all_eq_true.mp hwf a (self_mem_allNodes a)) (some e)
          (by rw [hms]; simpa using hmem)
        simp only [hid, beq_self_eq_true, Bool.not_true, Bool.false_or] at hwfn
        cases hq : e.include? with
        | none => rw [hq] at hwfn; simp at hwfn
        | some b =>
          cases b with
          | true =>
            rw [hq] at hex2
            simp [includeTruthy] at hex2
          | false => rfl
    · rintro ⟨e, hgm, hinc⟩
      rw [fileExcluded, hgm]
      simp [hinc, includeTruthy]
  · intro hgm
    rw [hfa]
    refine ⟨_, filterAux_some a ?_⟩
    simp [fileExcluded, hgm]
  · intro r hr
    rw [hfa] at hr
    have hk : fileExcluded a = false := by
      by_cases hx : fileExcluded a = true
      · rw [(filterAux_none_iff _).mpr hx] at hr
        exact Option.noConfusion hr
      · simpa using hx
    rw [filterAux_some a hk] at hr
    injection hr with hr2
    subst hr2
    refine ⟨rfl, rfl, rfl, rfl, rfl, ?_⟩
    exact filterAux_subtree_included a _ (filterAux_some a hk)

/-- C10: a FileHandler metadata entry that lacks the `include` flag is
treated as exclude, not as the default-include case: the node and its
whole subtree are dropped. -/
theorem claim_C10 (a : Asset) (e : MetadataEntry)
    (hgm : getHandlerMetadata (some FileHandler.id) a.metadata = some e)
    (hinc : e.include? = none) :
    filterIncludedFileAssets (some a) = none := by
  have hfa : filterIncludedFileAssets (some a) = filterIncludedAux a := rfl
  rw [hfa, filterAux_none_iff, fileExcluded, hgm]
  simp [hinc, includeTruthy]

/-- Concrete tree for the C3 witness: a metadata-free root with an
excluded child, an included child and a metadata-free child. -/
def exTreeC3 : Asset :=
  .mk (some "/r") (some Constants.AssetType.DIRECTORY) none none none none
    (some [.mk (some "/r/a") (some Constants.AssetType.FILE) none none
        (some [some { id := some FileHandler.id, include? := some false }]) none none,
      .mk (some "/r/b") (some Constants.AssetType.FILE) none none
        (some [some { id := some FileHandler.id, include? := some true }]) none none,
      .mk (some "/r/c") (some Constants.AssetType.FILE) none none none none none])

theorem claim_C3_witness :
    (filterIncludedFileAssets (some exTreeC3) = none ↔
      ∃ e, getHandlerMetadata (some FileHandler.id) exTreeC3.metadata = some e ∧
        e.include? = some false) ∧
    (getHandlerMetadata (some FileHandler.id) exTreeC3.metadata = none →
      ∃ r, filterIncludedFileAssets (some exTreeC3) = some r) ∧
    (∀ r, filterIncludedFileAssets (some exTreeC3) = some r →
      r.uri = exTreeC3.uri ∧ r.type = exTreeC3.type ∧ r.metadata = exTreeC3.metadata ∧
      r.notes = exTreeC3.notes ∧
      r.children = exTreeC3.children.map (fun l =>
        (l.map (fun c => filterIncludedFileAssets (some c))).reduceOption) ∧
      ∀ b ∈ allNodes r, fileExcluded b = false) :=
  claim_C3 exTreeC3 (by decide)

/-- Concrete tree for the C10 witness: the root's FileHandler entry
lacks the `include` flag, and a child is explicitly included. -/
def exTreeC10 : Asset :=
  .mk (some "/r") (some Constants.AssetType.FILE) none none
    (some [some { id := some FileHandler.id, include? := none }]) none
    (some [.mk (some "/r/kid") (some Constants.AssetType.FILE) none none
      (some [some { id := some FileHandler.id, include? := some true }]) none none])

theorem claim_C10_witness : filterIncludedFileAssets (some exTreeC10) = none :=
  claim_C10 exTreeC10 { id := some FileHandler.id, include? := none } (by decide) rfl

theorem findDescendantAux_eq (s : String) (u t n : Option String) (at1 : Option Attrs)
    (md : Option (List (Option MetadataEntry))) (ns : Option (List NoteRec))
    (cs : Option (List Asset)) :
    findDescendantAux (Asset.mk u t n at1 md ns cs) s =
      if (u == some s) = true then some (Asset.mk u t n at1 md ns cs)
      else match cs with
        | none => none
        | some l => findDescendantList l s := by
  rw [findDescendantAux.eq_def]

theorem findDescendantList_eq_find (s : String) :
    ∀ l : List Asset,
      (∀ c ∈ l, findDescendantAux c s = (allNodes c).find? (fun b => b.uri == some s)) →
      findDescendantList l s = (allNodesList l).find? (fun b => b.uri == some s) := by
  intro l
  induction l with
  | nil => intro _; rfl
  | cons c rest ih =>
    intro h
    rw [findDescendantList, allNodesList, List.find?_append,
      ← h c (by simp), ih (fun x hx => h x (List.mem_cons_of_mem c hx))]
    cases hf : findDescendantAux c s <;> simp [Option.or]

theorem findDescendantAux_eq_find (s : String) :
    ∀ a : Asset, findDescendantAux a s = (allNodes a).find? (fun b => b.uri == some s) := by
  intro a
  induction a using Asset.inductionOn with
  | step u t n at1 md ns cs ih =>
    rw [findDescendantAux_eq, allNodes]
    by_cases hu : (u == some s) = true
    · rw [if_pos hu, List.find?_cons_of_pos _ (by simpa [Asset.uri] using hu)]
    · rw [if_neg hu, List.find?_cons_of_neg _ (by simpa [Asset.uri] using hu)]
      cases cs with
      | none => rfl
      | some l =>
        rw [allNodesOpt]
        exact findDescendantList_eq_find s l (ih l rfl)

/-- C7: `findDescendantAssetByUri` returns null when the asset or uri
is absent; on a present asset and non-blank uri it returns the first
node of the pre-order node list whose uri matches exactly (so the asset
itself when its own uri matches, and null when no node matches). -/
theorem claim_C7 :
    (∀ u, findDescendantAssetByUri none u = none) ∧
    (∀ a, findDescendantAssetByUri a none = none) ∧
    (∀ (a : Asset) (s : String), s ≠ "" →
      findDescendantAssetByUri (some a) (some s) =
        (allNodes a).find? (fun b => b.uri == some s)) ∧
    (∀ (a : Asset) (s : String), s ≠ "" → a.uri = some s →
      findDescendantAssetByUri (some a) (some s) = some a) := by
  have hmain : ∀ (a : Asset) (s : String), s ≠ "" →
      findDescendantAssetByUri (some a) (some s) =
        (allNodes a).find? (fun b => b.uri == some s) := by
    intro a s hs
    have h1 : findDescendantAssetByUri (some a) (some s) = findDescendantAux a s := by
      simp [findDescendantAssetByUri, beq_eq_false_iff_ne.mpr hs]
    rw [h1, findDescendantAux_eq_find]
  refine ⟨fun u => rfl, ?_, hmain, ?_⟩
  · intro a
    cases a <;> rfl
  · intro a s hs hu
    rw [hmain a s hs]
    cases a with
    | mk u t n at1 md ns cs =>
      rw [allNodes]
      have hp : ((Asset.mk u t n at1 md ns cs).uri == some s) = true := by
        have hu2 : u = some s := hu
        simp [Asset.uri, hu2]
      exact List.find?_cons_of_pos _ hp

/-- Concrete tree for the C7 witness. -/
def exTreeC7 : Asset :=
  .mk (some "/r") (some Constants.AssetType.DIRECTORY) none none none none
    (some [.mk (some "/r/a") (some Constants.AssetType.FILE) none none none none none,
      .mk (some "/r/b") (some Constants.AssetType.FILE) none none none none none])

theorem claim_C7_witness :
    findDescendantAssetByUri (some exTreeC7) (some "/r/b") =
      (allNodes exTreeC7).find? (fun b => b.uri == some "/r/b") ∧
    findDescendantAssetByUri (some exTreeC7) (some "/r") = some exTreeC7 :=
  ⟨(claim_C7.2.2.1) exTreeC7 "/r/b" (by decide),
    (claim_C7.2.2.2) exTreeC7 "/r" (by decide) rfl⟩

theorem getAllNotesAux_eq (u t n : Option String) (at1 : Option Attrs)
    (md : Option (List (Option MetadataEntry))) (ns : Option (List NoteRec))
    (cs : Option (List Asset)) :
    getAllNotesAux (Asset.mk u t n at1 md ns cs) =
      (ns.getD []).map (fun nt => { nt with uri := u }) ++
      (match cs with
       | none => []
       | some l => getAllNotesList l) := by
  rw [getAllNotesAux.eq_def]
  cases ns <;> cases cs <;> simp

theorem getAllNotesList_eq_flatMap :
    ∀ l : List Asset,
      (∀ c ∈ l, getAllNotesAux c = (allNodes c).flatMap (fun b =>
        (b.notes.getD []).map (fun nt => { nt with uri := b.uri }))) →
      getAllNotesList l = (allNodesList l).flatMap (fun b =>
        (b.notes.getD []).map (fun nt => { nt with uri := b.uri })) := by
  intro l
  induction l with
  | nil => intro _; rfl
  | cons c rest ih =>
    intro h
    rw [getAllNotesList, allNodesList, List.flatMap_append,
      h c (by simp), ih (fun x hx => h x (List.mem_cons_of_mem c hx))]

theorem getAllNotesAux_flatMap : ∀ a : Asset,
    getAllNotesAux a = (allNodes a).flatMap (fun b =>
      (b.notes.getD []).map (fun nt => { nt with uri := b.uri })) := by
  intro a
  induction a using Asset.inductionOn with
  | step u t n at1 md ns cs ih =>
    rw [getAllNotesAux_eq, allNodes, List.flatMap_cons]
    have h2 : (match cs with | none => ([] : List NoteRec) | some l => getAllNotesList l) =
        (allNodesOpt cs).flatMap (fun b =>
          (b.notes.getD []).map (fun nt => { nt with uri := b.uri })) := by
      cases cs with
      | none => rfl
      | some l =>
        rw [allNodesOpt]
        exact getAllNotesList_eq_flatMap l (ih l rfl)
    rw [h2]
    simp [Asset.notes, Asset.uri]

/-- C6: `getAllNotes` returns the empty list for an absent asset, and
otherwise the pre-order flattening of all notes: for each node of the
pre-order node list, its own notes in stored order, each copied with
its `uri` field set to the owning node's uri. -/
theorem claim_C6 :
    getAllNotes none = [] ∧
    ∀ a : Asset, getAllNotes (some a) =
      (allNodes a).flatMap (fun b =>
        (b.notes.getD []).map (fun nt => { nt with uri := b.uri })) :=
  ⟨rfl, fun a => getAllNotesAux_flatMap a⟩

theorem takeWhile_append_all {q : Char → Bool} {xs : List Char} (ys : List Char)
    (h : ∀ x ∈ xs, q x = true) : (xs ++ ys).takeWhile q = xs ++ ys.takeWhile q := by
  induction xs with
  | nil => rfl
  | cons x xs ih =>
    simp only [List.cons_append, List.takeWhile_cons, h x (by simp), ite_true]
    rw [ih (fun z hz => h z (List.mem_cons_of_mem x hz))]

theorem takeWhile_all {q : Char → Bool} {xs : List Char}
    (h : ∀ x ∈ xs, q x = true) : xs.takeWhile q = xs := by
  have h2 := @takeWhile_append_all q xs [] h
  simpa using h2

theorem takeWhile_append_of_not {q : Char → Bool} {xs : List Char} (ys : List Char)
    (h : ∃ x ∈ xs, q x = false) : (xs ++ ys).takeWhile q = xs.takeWhile q := by
  induction xs with
  | nil =>
    obtain ⟨x, hx, _⟩ := h
    cases hx
  | cons x xs ih =>
    simp only [List.cons_append, List.takeWhile_cons]
    cases hq : q x with
    | false => simp
    | true =>
      simp only [ite_true]
      have h2 : ∃ z ∈ xs, q z = false := by
        obtain ⟨z, hz, hqz⟩ := h
        rcases List.mem_cons.mp hz with h1 | h1
        · subst h1
          rw [hq] at hqz
          simp at hqz
        · exact ⟨z, h1, hqz⟩
      rw [ih h2]

theorem takeWhile_append_single {q : Char → Bool} (ys : List Char) (x : Char)
    (hx : q x = false) : (ys ++ [x]).takeWhile q = ys.takeWhile q := by
  by_cases hall : ∀ z ∈ ys, q z = true
  · rw [takeWhile_append_all _ hall, takeWhile_all hall]
    simp [List.takeWhile_cons, hx]
  · push_neg at hall
    obtain ⟨z, hz, hqz⟩ := hall
    exact takeWhile_append_of_not _ ⟨z, hz, by simpa using hqz⟩

theorem lastIdxOf_none_all {c : Char} : ∀ {l : List Char}, lastIdxOf c l = none →
    ∀ x ∈ l, (x == c) = false := by
  intro l
  induction l with
  | nil => intro _ x hx; cases hx
  | cons x xs ih =>
    intro h z hz
    rw [lastIdxOf] at h
    cases hr : lastIdxOf c xs with
    | some j => rw [hr] at h; cases h
    | none =>
      rw [hr] at h
      have hx : (x == c) = false := by
        by_cases hxc : (x == c) = true
        · rw [if_pos hxc] at h; cases h
        · simpa using hxc
      rcases List.mem_cons.mp hz with h1 | h1
      · subst h1; exact hx
      · exact ih hr z h1

theorem lastIdxOf_mem {c : Char} : ∀ {l : List Char} {i : Nat},
    lastIdxOf c l = some i → c ∈ l := by
  intro l
  induction l with
  | nil => intro i h; cases h
  | cons x xs ih =>
    intro i h
    rw [lastIdxOf] at h
    cases hr : lastIdxOf c xs with
    | some j => exact List.mem_cons_of_mem x (ih hr)
    | none =>
      rw [hr] at h
      by_cases hxc : (x == c) = true
      · have : x = c := by simpa using hxc
        subst this
        exact List.mem_cons_self x xs
      · rw [if_neg hxc] at h; cases h

theorem lastIdxOf_drop {c : Char} : ∀ {l : List Char} {i : Nat},
    lastIdxOf c l = some i →
      l.drop (i + 1) = (l.reverse.takeWhile (fun x => !(x == c))).reverse := by
  intro l
  induction l with
  | nil => intro i h; cases h
  | cons x xs ih =>
    intro i h
    rw [lastIdxOf] at h
    cases hr : lastIdxOf c xs with
    | some j =>
      rw [hr] at h
      injection h with h2
      subst h2
      rw [List.drop_succ_cons, ih hr, List.reverse_cons,
        takeWhile_append_of_not [x] ⟨c, lastIdxOf_mem hr |> List.mem_reverse.mpr,
          by simp⟩]
    | none =>
      rw [hr] at h
      by_cases hxc : (x == c) = true
      · rw [if_pos hxc] at h
        injection h with h2
        subst h2
        rw [List.drop_succ_cons, List.drop_zero, List.reverse_cons,
          takeWhile_append_single _ _ (by simp [hxc]),
          takeWhile_all (fun z hz =>
            by simpa using lastIdxOf_none_all hr z (List.mem_reverse.mp hz)),
          List.reverse_reverse]
      · rw [if_neg hxc] at h; cases h

theorem lastIdxOf_zero_not_drop {c : Char} {l : List Char}
    (h : lastIdxOf c l = some 0) : c ∉ l.drop 1 := by
  cases l with
  | nil => cases h
  | cons x xs =>
    rw [lastIdxOf] at h
    cases hr : lastIdxOf c xs with
    | some j => rw [hr] at h; cases h
    | none =>
      intro hmem
      rw [List.drop_succ_cons, List.drop_zero] at hmem
      have := lastIdxOf_none_all hr c hmem
      simp at this

theorem lastIdxOf_succ_mem_drop {c : Char} {l : List Char} {j : Nat}
    (h : lastIdxOf c l = some (j + 1)) : c ∈ l.drop 1 := by
  cases l with
  | nil => cases h
  | cons x xs =>
    rw [lastIdxOf] at h
    cases hr : lastIdxOf c xs with
    | some k =>
      rw [List.drop_succ_cons, List.drop_zero]
      exact lastIdxOf_mem hr
    | none =>
      rw [hr] at h
      by_cases hxc : (x == c) = true
      · rw [if_pos hxc] at h
        injection h with h2
        cases h2
      · rw [if_neg hxc] at h; cases h

theorem splitBy_cons_eq (p : Char → Bool) (x : Char) (xs : List Char)
    {s : List Char} {ss : List (List Char)} (hr : splitBy p xs = s :: ss) :
    splitBy p (x :: xs) = if p x = true then [] :: s :: ss else (x :: s) :: ss := by
  rw [splitBy, hr]

theorem splitBy_singleton {p : Char → Bool} : ∀ {xs s : List Char},
    splitBy p xs = [s] → xs = s ∧ ∀ z ∈ xs, p z = false := by
  intro xs
  induction xs with
  | nil =>
    intro s h
    rw [splitBy] at h
    injection h with h1
    subst h1
    exact ⟨rfl, by simp⟩
  | cons x xs ih =>
    intro s h
    cases hr : splitBy p xs with
    | nil => exact absurd hr (splitBy_ne_nil _ _)
    | cons s2 ss2 =>
      rw [splitBy_cons_eq p x xs hr] at h
      by_cases hpx : p x = true
      · rw [if_pos hpx] at h
        simp at h
      · rw [if_neg hpx] at h
        injection h with h1 h2
        subst h2
        obtain ⟨hxs, hall⟩ := ih hr
        subst hxs
        refine ⟨h1, ?_⟩
        intro z hz
        rcases List.mem_cons.mp hz with hz1 | hz1
        · subst hz1; simpa using hpx
        · exact hall z hz1

theorem splitBy_has_sep {p : Char → Bool} {xs s s2 : List Char} {ss2 : List (List Char)}
    (h : splitBy p xs = s :: s2 :: ss2) : ∃ z ∈ xs, p z = true := by
  by_contra hno
  push_neg at hno
  have hall : ∀ z ∈ xs, p z = false := fun z hz => by simpa using hno z hz
  rw [splitBy_of_no_sep p xs hall] at h
  injection h with h1 h2
  simp at h2

theorem getLastD_of_ne_nil {l : List (List Char)} (h : l ≠ []) (d1 d2 : List Char) :
    l.getLastD d1 = l.getLastD d2 := by
  rw [List.getLastD_eq_getLast?, List.getLastD_eq_getLast?]
  cases hgl : l.getLast? with
  | none =>
    rw [List.getLast?_eq_none_iff] at hgl
    exact absurd hgl h
  | some v => rfl

theorem splitBy_getLast_eq (p : Char → Bool) :
    ∀ l : List Char, (splitBy p l).getLastD [] =
      (l.reverse.takeWhile (fun c => !p c)).reverse := by
  intro l
  induction l with
  | nil => rfl
  | cons x xs ih =>
    cases hr : splitBy p xs with
    | nil => exact absurd hr (splitBy_ne_nil _ _)
    | cons s ss =>
      rw [hr] at ih
      rw [splitBy_cons_eq p x xs hr]
      by_cases hpx : p x = true
      · rw [if_pos hpx, List.reverse_cons,
          takeWhile_append_single _ _ (by simp [hpx]), ← ih]
        simp [List.getLastD_cons]
      · rw [if_neg hpx]
        cases ss with
        | nil =>
          obtain ⟨hxs, hall⟩ := splitBy_singleton hr
          have hpx2 : p x = false := by simpa using hpx
          have hqx : ([x].takeWhile (fun c => !p c)) = [x] := by
            simp [List.takeWhile_cons, hpx2]
          rw [List.reverse_cons,
            takeWhile_append_all _ (fun z hz => by
              simp [hall z (List.mem_reverse.mp hz)]),
            hqx, List.reverse_append]
          simp [hxs, List.getLastD_cons]
        | cons s2 ss2 =>
          obtain ⟨z, hz, hpz⟩ := splitBy_has_sep hr
          have hnot : ∃ c2 ∈ xs.reverse, (fun c => !p c) c2 = false :=
            ⟨z, List.mem_reverse.mpr hz, by simp [hpz]⟩
          rw [List.reverse_cons, takeWhile_append_of_not [x] hnot, ← ih]
          have h1 : ((x :: s) :: s2 :: ss2).getLastD [] = (s2 :: ss2).getLastD (x :: s) :=
            List.getLastD_cons _ _ _
          have h2 : (s :: s2 :: ss2).getLastD [] = (s2 :: ss2).getLastD s :=
            List.getLastD_cons _ _ _
          rw [h1, h2]
          exact getLastD_of_ne_nil (by simp) (x :: s) s

/-- Second definition following the spec's words (the refinement
counterpart for C8): extract the final path segment — the characters
after the last separator, accepting both forward and back slashes —
and return the characters after the last `.`, or the empty string when
there is no segment, no `.`, or the last `.` is the segment's first
character. -/
def specExtensionOfUri (uri : String) : String :=
  let seg := (uri.data.reverse.takeWhile (fun c => !isAnySlash c)).reverse
  if '.' ∈ seg.drop 1 then
    String.mk ((seg.reverse.takeWhile (fun x => !(x == '.'))).reverse)
  else ""

theorem extOfSeg_eq_spec (b : List Char) :
    extOfSeg b = if '.' ∈ b.drop 1 then
      String.mk ((b.reverse.takeWhile (fun x => !(x == '.'))).reverse) else "" := by
  rw [extOfSeg]
  split
  · next hli =>
    have hnot : '.' ∉ b.drop 1 := by
      intro hmem
      have := lastIdxOf_none_all hli '.' (List.mem_of_mem_drop hmem)
      simp at this
    rw [if_neg hnot]
  · next hli =>
    rw [if_neg (lastIdxOf_zero_not_drop hli)]
  · next i hli =>
    rw [if_pos (lastIdxOf_succ_mem_drop hli)]
    have hne : b ≠ [] := by
      intro hnil
      have hm := lastIdxOf_mem hli
      rw [hnil] at hm
      cases hm
    rw [if_neg (by simpa using hne), lastIdxOf_drop hli]

theorem extFromChars_eq_spec (l : List Char) :
    extFromChars l = specExtensionOfUri (String.mk l) := by
  rw [extFromChars, splitBy_getLast_eq isAnySlash l, extOfSeg_eq_spec]
  simp only [specExtensionOfUri, data_mk]

/-- C8: `getExtensionFromUri` agrees with the spec's description — the
substring after the last `.` of the final path segment (split on both
separator styles), empty when the input is absent, the segment is
empty, there is no `.`, or the last `.` is the segment's first
character — on strings, on objects with a `uri` field, and on the
spec's three examples. -/
theorem claim_C8 :
    getExtensionFromUri none = "" ∧
    (∀ s : String, getExtensionFromUri (some (.str s)) = specExtensionOfUri s) ∧
    (∀ (a : Asset) (u : String), a.uri = some u →
      getExtensionFromUri (some (.obj a)) = specExtensionOfUri u) ∧
    getExtensionFromUri (some (.str "a/b/file.tar.gz")) = "gz" ∧
    getExtensionFromUri (some (.str "a/.gitignore")) = "" ∧
    getExtensionFromUri (some (.str "a/noext")) = "" := by
  have hstr : ∀ s : String, getExtensionFromUri (some (.str s)) = specExtensionOfUri s := by
    intro s
    by_cases hs : s = ""
    · subst hs; decide
    · have h1 : getExtensionFromUri (some (.str s)) = extFromChars s.data := by
        simp [getExtensionFromUri, uriOrAssetFalsy, beq_eq_false_iff_ne.mpr hs]
      rw [h1, extFromChars_eq_spec]
  refine ⟨rfl, hstr, ?_, by decide, by decide, by decide⟩
  intro a u hu
  by_cases hu0 : u = ""
  · subst hu0
    have h1 : getExtensionFromUri (some (.obj a)) = extFromChars ("" : String).data := by
      simp [getExtensionFromUri, uriOrAssetFalsy, hu]
    rw [h1, extFromChars_eq_spec]
  · have h1 : getExtensionFromUri (some (.obj a)) = extFromChars u.data := by
      simp [getExtensionFromUri, uriOrAssetFalsy, hu, beq_eq_false_iff_ne.mpr hu0]
    rw [h1, extFromChars_eq_spec]

theorem claim_C8_witness :
    getExtensionFromUri (some (.str "a/b/file.tar.gz")) =
      specExtensionOfUri "a/b/file.tar.gz" ∧
    getExtensionFromUri
        (some (.obj (Asset.mk (some "dir\\archive.tar.gz") (some Constants.AssetType.FILE)
          none none none none none))) =
      specExtensionOfUri "dir\\archive.tar.gz" :=
  ⟨claim_C8.2.1 "a/b/file.tar.gz",
    claim_C8.2.2.1 (Asset.mk (some "dir\\archive.tar.gz") (some Constants.AssetType.FILE)
      none none none none none) "dir\\archive.tar.gz" rfl⟩

/-- Concrete convertible asset with a relative uri (C4
counterexample). -/
def exAssetC4rel : Asset :=
  .mk (some "data/x.csv") (some Constants.AssetType.FILE) none none none none none

/-- Concrete convertible asset with an absolute uri (C4
counterexample). -/
def exAssetC4abs : Asset :=
  .mk (some "/proj/x.csv") (some Constants.AssetType.FILE) none none none none none

/-- C4 counterexample: with a null/undefined project root, the
flat-array conversion variants — and the single-node converters they
call — do not return a neutral value: `path.resolve(null, uri)` and
`path.relative(null, uri)` throw a TypeError, so the claim's no-throw
guarantee fails at these concrete inputs. -/
theorem claim_C4_counterexample :
    relativeToAbsolutePathForArray none (some [exAssetC4rel]) = Except.error "TypeError" ∧
    absoluteToRelativePathForArray none (some [exAssetC4abs]) = Except.error "TypeError" ∧
    relativeToAbsolutePath none (some exAssetC4rel) = Except.error "TypeError" := by
  refine ⟨rfl, ?_, rfl⟩
  rfl

theorem convertArrayGo_ok (p : String)
    (w : Option String → Option Asset → Except String (Option String))
    (hw : ∀ x : Asset, ∃ y, w (some p) (some x) = .ok y) :
    ∀ l : List Asset, ∃ r, convertArrayGo (some p) w l = .ok r := by
  intro l
  induction l with
  | nil => exact ⟨[], rfl⟩
  | cons a rest ih =>
    obtain ⟨r, hr⟩ := ih
    rw [convertArrayGo]
    by_cases hc : shouldConvertPath (some a) = true
    · rw [if_pos hc]
      obtain ⟨y, hy⟩ := hw a
      rw [hy, hr]
      exact ⟨_, rfl⟩
    · rw [if_neg hc, hr]
      exact ⟨_, rfl⟩

/-- C4 (amended): every modelled operation validates the inputs the
source checks — absent trees, assets, uris and metadata lists, blank
handler ids, and (for the recursive tree conversions only) a
null/undefined project root — returning a neutral value; the flat-array
conversion variants and the single-node converters do not validate the
project root (they throw on null, see the counterexample), but with a
present root they always return normally. -/
theorem claim_C4 :
    (∀ m, getHandlerMetadata none m = none) ∧
    (∀ (h2 : String) m, jsTrim h2 = "" → getHandlerMetadata (some h2) m = none) ∧
    filterIncludedFileAssets none = none ∧
    (∀ u, findChildAssetByUri none u = none) ∧
    (∀ a, findChildAssetByUri a none = none) ∧
    (∀ r, findAllDescendantAssetsByUri none r = []) ∧
    (∀ a2, findAllDescendantAssetsByUri a2 none = []) ∧
    getAllNotes none = [] ∧
    (getAssetNameFromUri none = "" ∧ getExtensionFromUri none = "") ∧
    (∀ p w, recursivePathConversion p none w = none) ∧
    (∀ a w, recursivePathConversion none (some a) w = some a) ∧
    (∀ p, relativeToAbsolutePath p none = Except.ok none ∧
      absoluteToRelativePath p none = Except.ok none) ∧
    (∀ p a, a.uri = none → relativeToAbsolutePath p (some a) = Except.ok none ∧
      absoluteToRelativePath p (some a) = Except.ok none) ∧
    (∀ p w, _convertPathForArray p none w = Except.ok none) ∧
    (∀ (p : String) (l : List Asset),
      (∃ r, relativeToAbsolutePathForArray (some p) (some l) = Except.ok (some r)) ∧
      (∃ r, absoluteToRelativePathForArray (some p) (some l) = Except.ok (some r))) := by
  refine ⟨?_, ?_, rfl, ?_, ?_, ?_, ?_, rfl, ⟨rfl, rfl⟩, ?_, ?_, ?_, ?_, ?_, ?_⟩
  · intro m
    cases m <;> simp [getHandlerMetadata]
  · intro h2 m htrim
    cases m with
    | none => rfl
    | some ms => simp [getHandlerMetadata, htrim]
  · intro u
    cases u <;> rfl
  · intro a
    cases a <;> rfl
  · intro r
    cases r <;> rfl
  · intro a2
    cases a2 <;> rfl
  · intro p w
    cases p <;> rfl
  · intro a w
    rfl
  · intro p
    cases p <;> exact ⟨rfl, rfl⟩
  · intro p a hu
    cases a with
    | mk u t n at1 md ns cs =>
      have hu2 : u = none := hu
      subst hu2
      cases p <;> exact ⟨rfl, rfl⟩
  · intro p w
    rfl
  · intro p l
    constructor
    · obtain ⟨r, hr⟩ := convertArrayGo_ok p relativeToAbsolutePath
        (fun x => ⟨_, relativeToAbsolutePath_eq_core p x⟩) l
      refine ⟨r, ?_⟩
      rw [relativeToAbsolutePathForArray, _convertPathForArray, hr]
    · obtain ⟨r, hr⟩ := convertArrayGo_ok p absoluteToRelativePath
        (fun x => ⟨_, absoluteToRelativePath_eq_core p x⟩) l
      refine ⟨r, ?_⟩
      rw [absoluteToRelativePathForArray, _convertPathForArray, hr]

/-- Concrete asset without a uri for the C4 witness. -/
def exAssetC4noUri : Asset :=
  .mk none (some Constants.AssetType.FILE) none none none none none

/-- The joined path string of a list of segment strings. -/
def joinSegsStr (segs : List String) : String :=
  String.mk (joinBy '/' (segs.map String.data))

/-- The ancestor paths strictly between `root ++ "/" ++ joined segs`
and `root`, innermost to outermost (the spec-side description for the
amended C2). -/
def ancestorPaths (root : String) (segs : List String) : List String :=
  (List.range segs.length).reverse.filterMap (fun k =>
    if k = 0 then none else some (root ++ "/" ++ joinSegsStr (segs.take k)))

theorem filterMapCongr {f g : Nat → Option String} :
    ∀ {l : List Nat}, (∀ x ∈ l, f x = g x) → l.filterMap f = l.filterMap g := by
  intro l
  induction l with
  | nil => intro _; rfl
  | cons x xs ih =>
    intro h
    rw [List.filterMap_cons, List.filterMap_cons, h x (by simp),
      ih (fun z hz => h z (List.mem_cons_of_mem x hz))]

theorem joinBy_concat (q : List Char) : ∀ parts : List (List Char), parts ≠ [] →
    joinBy '/' (parts ++ [q]) = joinBy '/' parts ++ '/' :: q := by
  intro parts
  induction parts with
  | nil => intro h; exact absurd rfl h
  | cons s rest ih =>
    intro _
    cases rest with
    | nil => rfl
    | cons s2 rest2 =>
      show s ++ '/' :: joinBy '/' ((s2 :: rest2) ++ [q]) =
        (s ++ '/' :: joinBy '/' (s2 :: rest2)) ++ '/' :: q
      rw [ih (by simp)]
      simp [List.append_assoc]

theorem joinBy_length_ge : ∀ parts : List (List Char),
    parts.length - 1 ≤ (joinBy '/' parts).length := by
  intro parts
  induction parts with
  | nil => simp [joinBy]
  | cons s rest ih =>
    cases rest with
    | nil => simp
    | cons s2 rest2 =>
      show (s :: s2 :: rest2).length - 1 ≤ (s ++ '/' :: joinBy '/' (s2 :: rest2)).length
      simp only [List.length_cons, List.length_append] at ih ⊢
      omega

theorem isPrefixOf_append (l t : List Char) : l.isPrefixOf (l ++ t) = true := by
  induction l with
  | nil => simp [List.isPrefixOf]
  | cons c cs ih => simp [List.isPrefixOf, ih]

theorem jsIndexOf_of_isPrefix (s pat : String) (h : pat.data.isPrefixOf s.data = true) :
    jsIndexOf s pat = some 0 := by
  rw [jsIndexOf]
  cases hd : s.data with
  | nil =>
    rw [hd] at h
    simp [firstIdxOfFrom, h]
  | cons c t =>
    rw [hd] at h
    simp [firstIdxOfFrom, h]

theorem firstIdxOfFrom_lt {pat : List Char} (hpat : pat ≠ []) :
    ∀ (l : List Char) (j i : Nat), firstIdxOfFrom pat l j = some i → i < j + l.length := by
  intro l
  induction l with
  | nil =>
    intro j i h
    rw [firstIdxOfFrom] at h
    rw [if_neg ?_] at h
    · cases h
    · cases pat with
      | nil => exact absurd rfl hpat
      | cons c cs => simp [List.isPrefixOf]
  | cons c t ih =>
    intro j i h
    rw [firstIdxOfFrom] at h
    by_cases hp : pat.isPrefixOf (c :: t) = true
    · rw [if_pos hp] at h
      injection h with h2
      subst h2
      simp
    · rw [if_neg hp] at h
      have := ih (j + 1) i h
      simp only [List.length_cons] at this ⊢
      omega

theorem guard_ne_of_ge (root s : String) (hroot : root ≠ "")
    (hlen : root.data.length ≤ s.data.length) :
    (s == jsSubstringTo root (jsIndexOf root "/")) = false := by
  rw [beq_eq_false_iff_ne]
  intro he
  cases h : jsIndexOf root "/" with
  | none =>
    rw [h] at he
    have hd : s.data = [] := by rw [he]; rfl
    rw [hd] at hlen
    have h1 : root.data = [] := List.length_eq_zero.mp (Nat.le_zero.mp hlen)
    apply hroot
    have h2 : String.mk root.data = String.mk [] := by rw [h1]
    exact ((mk_data root).symm.trans h2).trans rfl
  | some k =>
    rw [h] at he
    have hk : k < root.data.length := by
      have := @firstIdxOfFrom_lt ("/" : String).data (by decide) root.data 0 k h
      simpa using this
    have hd : s.data.length = (root.data.take k).length := by rw [he]; rfl
    rw [List.length_take] at hd
    omega

theorem lastIdxOf_none_of_all {c : Char} : ∀ {l : List Char},
    (∀ x ∈ l, (x == c) = false) → lastIdxOf c l = none := by
  intro l
  induction l with
  | nil => intro _; rfl
  | cons x xs ih =>
    intro h
    rw [lastIdxOf, ih (fun z hz => h z (List.mem_cons_of_mem x hz))]
    simp [h x (by simp)]

theorem lastIdxOf_append_sep (xs ys : List Char)
    (hys : ∀ x ∈ ys, (x == '/') = false) :
    lastIdxOf '/' (xs ++ '/' :: ys) = some xs.length := by
  induction xs with
  | nil =>
    rw [List.nil_append, lastIdxOf, lastIdxOf_none_of_all hys]
    simp
  | cons x xs ih =>
    rw [List.cons_append, lastIdxOf, ih]
    simp

theorem chopLoop_at_root (root : String) (fuel : Nat) (acc : List String) :
    chopLoop root fuel root acc = acc := by
  cases fuel with
  | zero => rfl
  | succ f =>
    rw [chopLoop]
    simp

theorem chopLoop_step (root : String) (fuel : Nat) (au : String) (acc : List String)
    (hne : ¬ au = root) (p : Nat) (hlast : lastIdxOf '/' au.data = some p) :
    chopLoop root (fuel + 1) au acc =
      chopLoop root fuel (String.mk (au.data.take p))
        (if String.mk (au.data.take p) == jsSubstringTo root (jsIndexOf root "/") then acc
         else acc ++ [String.mk (au.data.take p)]) := by
  rw [chopLoop]
  rw [if_neg (by simpa [beq_iff_eq] using hne), hlast]

theorem data_append3 (root tail : String) :
    (root ++ "/" ++ tail).data = root.data ++ '/' :: tail.data := by
  rw [data_append, data_append]
  have h1 : ("/" : String).data = ['/'] := rfl
  rw [h1, List.append_assoc]
  rfl

theorem ancestorPaths_single (root lst : String) : ancestorPaths root [lst] = [] := by
  simp [ancestorPaths, List.range_succ, List.range_zero]

theorem filterMap_cons_some {f : Nat → Option String} {a : Nat} {l : List Nat} {b : String}
    (h : f a = some b) : (a :: l).filterMap f = b :: l.filterMap f := by
  rw [List.filterMap_cons, h]

theorem ancestorPaths_concat (root : String) (init : List String) (lst : String)
    (h : init ≠ []) :
    ancestorPaths root (init ++ [lst]) =
      (root ++ "/" ++ joinSegsStr init) :: ancestorPaths root init := by
  rw [ancestorPaths, ancestorPaths, List.length_append]
  have hm : init.length ≠ 0 := fun h0 => h (List.length_eq_zero.mp h0)
  rw [show init.length + [lst].length = init.length + 1 by simp]
  rw [List.range_succ, List.reverse_append]
  rw [show ([init.length] : List Nat).reverse = [init.length] from rfl, List.singleton_append]
  have hfa : (fun k => if k = 0 then none
      else some (root ++ "/" ++ joinSegsStr ((init ++ [lst]).take k))) init.length =
      some (root ++ "/" ++ joinSegsStr init) := by
    show (if init.length = 0 then (none : Option String)
      else some (root ++ "/" ++ joinSegsStr ((init ++ [lst]).take init.length))) =
      some (root ++ "/" ++ joinSegsStr init)
    rw [if_neg hm, List.take_left]
  rw [filterMap_cons_some hfa]
  congr 1
  apply filterMapCongr
  intro k hk
  have hk2 : k < init.length := List.mem_range.mp (List.mem_reverse.mp hk)
  by_cases hk0 : k = 0
  · rw [if_pos hk0, if_pos hk0]
  · rw [if_neg hk0, if_neg hk0, List.take_append_of_le_length (Nat.le_of_lt hk2)]

theorem string_ne_of_longer {a b : String} (h : b.data.length < a.data.length) :
    ¬ a = b := by
  intro he
  rw [he] at h
  omega

theorem chopLoop_spec (root : String) (hroot : root ≠ "") :
    ∀ (n : Nat) (segs : List String), segs.length ≤ n → segs ≠ [] →
      (∀ s ∈ segs, s.data ≠ [] ∧ ∀ c ∈ s.data, (c == '/') = false) →
      ∀ (fuel : Nat) (acc : List String), segs.length ≤ fuel →
        chopLoop root fuel (root ++ "/" ++ joinSegsStr segs) acc =
          acc ++ ancestorPaths root segs ++ [root] := by
  intro n
  induction n with
  | zero =>
    intro segs hlen hne
    exact absurd (List.length_eq_zero.mp (Nat.le_zero.mp hlen)) hne
  | succ n ih =>
    intro segs hlen hne hnorm fuel acc hfuel
    rcases List.eq_nil_or_concat segs with hnil | ⟨init, lst, hconcat⟩
    · exact absurd hnil hne
    rw [List.concat_eq_append] at hconcat
    subst hconcat
    by_cases hinit : init = []
    · subst hinit
      simp only [List.nil_append] at hlen hnorm hfuel ⊢
      obtain ⟨hlstne, hlstfree⟩ := hnorm lst (by simp)
      have hjoin : joinSegsStr [lst] = lst := rfl
      rw [hjoin]
      cases fuel with
      | zero => simp at hfuel
      | succ f =>
        have hdata := data_append3 root lst
        have hne2 : ¬ (root ++ "/" ++ lst) = root := by
          apply string_ne_of_longer
          rw [hdata]
          simp only [List.length_append, List.length_cons]
          omega
        have hlast : lastIdxOf '/' (root ++ "/" ++ lst).data = some root.data.length := by
          rw [hdata]
          exact lastIdxOf_append_sep root.data lst.data hlstfree
        rw [chopLoop_step root f _ acc hne2 root.data.length hlast]
        have htake : String.mk ((root ++ "/" ++ lst).data.take root.data.length) = root := by
          rw [hdata, List.take_left]
        rw [htake]
        have hg : (root == jsSubstringTo root (jsIndexOf root "/")) = false :=
          guard_ne_of_ge root root hroot (Nat.le_refl _)
        rw [if_neg (by simp [hg])]
        rw [chopLoop_at_root, ancestorPaths_single]
        simp
    · have hinitmapne : init.map String.data ≠ [] := by simpa using hinit
      have hdecomp : (joinSegsStr (init ++ [lst])).data =
          (joinSegsStr init).data ++ '/' :: lst.data := by
        rw [joinSegsStr, joinSegsStr, data_mk, data_mk, List.map_append]
        simp only [List.map_cons, List.map_nil]
        exact joinBy_concat lst.data (init.map String.data) hinitmapne
      have hau : (root ++ "/" ++ joinSegsStr (init ++ [lst])).data =
          (root ++ "/" ++ joinSegsStr init).data ++ '/' :: lst.data := by
        rw [data_append3, data_append3, hdecomp]
        simp [List.append_assoc]
      obtain ⟨hlstne, hlstfree⟩ := hnorm lst (by simp)
      cases fuel with
      | zero =>
        rw [List.length_append] at hfuel
        simp at hfuel
      | succ f =>
        have hne2 : ¬ (root ++ "/" ++ joinSegsStr (init ++ [lst])) = root := by
          apply string_ne_of_longer
          rw [hau, data_append3]
          simp only [List.length_append, List.length_cons]
          omega
        have hlast : lastIdxOf '/' (root ++ "/" ++ joinSegsStr (init ++ [lst])).data =
            some (root ++ "/" ++ joinSegsStr init).data.length := by
          rw [hau]
          exact lastIdxOf_append_sep _ _ hlstfree
        rw [chopLoop_step root f _ acc hne2 _ hlast]
        have htake : String.mk ((root ++ "/" ++ joinSegsStr (init ++ [lst])).data.take
            (root ++ "/" ++ joinSegsStr init).data.length) =
            root ++ "/" ++ joinSegsStr init := by
          rw [hau, List.take_left]
        rw [htake]
        have hg : ((root ++ "/" ++ joinSegsStr init) ==
            jsSubstringTo root (jsIndexOf root "/")) = false := by
          apply guard_ne_of_ge root _ hroot
          rw [data_append3]
          simp only [List.length_append, List.length_cons]
          omega
        rw [if_neg (by simp [hg])]
        have hlen2 : init.length ≤ n := by
          rw [List.length_append] at hlen
          simp only [List.length_cons, List.length_nil] at hlen
          omega
        have hfuel2 : init.length ≤ f := by
          rw [List.length_append] at hfuel
          simp only [List.length_cons, List.length_nil] at hfuel
          omega
        rw [ih init hlen2 hinit (fun s hs => hnorm s (List.mem_append_left _ hs)) f
          (acc ++ [root ++ "/" ++ joinSegsStr init]) hfuel2]
        rw [ancestorPaths_concat root init lst hinit]
        simp [List.append_assoc]

/-- C2 (amended): for a root uri and an asset uri formed from the root
plus one or more separator-free segments, `findAllDescendantAssetsByUri`
returns the strictly intermediate ancestor paths followed by the root
uri itself, innermost to outermost (the loop pushes each cut before
re-testing its condition, so the root is included); it returns the
empty list when either argument is absent or the root is not a string
prefix of the asset uri at position 0. -/
theorem claim_C2 :
    (∀ (root : String) (segs : List String), root ≠ "" → segs ≠ [] →
      (∀ s ∈ segs, s.data ≠ [] ∧ ∀ c ∈ s.data, (c == '/') = false) →
      findAllDescendantAssetsByUri (some (root ++ "/" ++ joinSegsStr segs)) (some root) =
        ancestorPaths root segs ++ [root]) ∧
    (∀ r, findAllDescendantAssetsByUri none r = []) ∧
    (∀ a2, findAllDescendantAssetsByUri a2 none = []) ∧
    (∀ au ru : String, ¬ jsIndexOf au ru = some 0 →
      findAllDescendantAssetsByUri (some au) (some ru) = []) := by
  refine ⟨?_, ?_, ?_, ?_⟩
  · intro root segs hroot hsegs hnorm
    have hau : (root ++ "/" ++ joinSegsStr segs).data =
        root.data ++ '/' :: (joinSegsStr segs).data := data_append3 _ _
    have hne0 : ((root ++ "/" ++ joinSegsStr segs) == "") = false := by
      rw [beq_eq_false_iff_ne]
      apply string_ne_of_longer
      rw [hau]
      simp
    have hne0r : (root == "") = false := by
      rw [beq_eq_false_iff_ne]
      exact hroot
    have hpre : jsIndexOf (root ++ "/" ++ joinSegsStr segs) root = some 0 := by
      apply jsIndexOf_of_isPrefix
      rw [hau]
      exact isPrefixOf_append root.data _
    rw [findAllDescendantAssetsByUri]
    simp only [hne0, hne0r, hpre, Bool.or_self, Option.isSome_some, beq_self_eq_true,
      Bool.and_self, Bool.false_eq_true, ite_false, ite_true]
    have e1 : (root ++ "/" ++ joinSegsStr segs).length =
        root.data.length + 1 + (joinBy '/' (segs.map String.data)).length := by
      show (root ++ "/" ++ joinSegsStr segs).data.length = _
      rw [hau]
      simp [List.length_append]
      have hjl : (joinSegsStr segs).length = (joinBy '/' (segs.map String.data)).length := rfl
      omega
    have e2 : segs.length - 1 ≤ (joinBy '/' (segs.map String.data)).length := by
      have h3 := joinBy_length_ge (segs.map String.data)
      rwa [List.length_map] at h3
    have hfuelbig : segs.length ≤ (root ++ "/" ++ joinSegsStr segs).length + 1 := by
      have hpos : 0 < segs.length := List.length_pos.mpr hsegs
      omega
    exact chopLoop_spec root hroot segs.length segs (Nat.le_refl _) hsegs hnorm _ [] hfuelbig
  · intro r
    cases r <;> rfl
  · intro a2
    cases a2 <;> rfl
  · intro au ru hnot
    rw [findAllDescendantAssetsByUri]
    by_cases h0 : (au == "") = true
    · simp [h0]
    · by_cases h1 : (ru == "") = true
      · simp [h0, h1]
      · have h2 : (jsIndexOf au ru == some 0) = false := by
          rw [beq_eq_false_iff_ne]
          exact hnot
        simp [h0, h1, h2]

/-- C2 counterexample: on the spec's own example the code returns the
root uri as a final element, so the claimed two-element result is
wrong. -/
theorem claim_C2_counterexample :
    findAllDescendantAssetsByUri (some "/proj/src/pkg/mod.py") (some "/proj") ≠
      ["/proj/src/pkg", "/proj/src"] := by decide

theorem claim_C2_witness :
    findAllDescendantAssetsByUri
        (some ("/proj" ++ "/" ++ joinSegsStr ["src", "pkg", "mod.py"])) (some "/proj") =
      ancestorPaths "/proj" ["src", "pkg", "mod.py"] ++ ["/proj"] :=
  claim_C2.1 "/proj" ["src", "pkg", "mod.py"] (by decide) (by decide) (by decide)

theorem claim_C4_witness :
    getHandlerMetadata (some "  ") (some []) = none ∧
    (relativeToAbsolutePath (some "/p") (some exAssetC4noUri) = Except.ok none ∧
      absoluteToRelativePath (some "/p") (some exAssetC4noUri) = Except.ok none) ∧
    ((∃ r, relativeToAbsolutePathForArray (some "/p") (some [exAssetC4rel]) =
        Except.ok (some r)) ∧
      (∃ r, absoluteToRelativePathForArray (some "/p") (some [exAssetC4rel]) =
        Except.ok (some r))) :=
  ⟨claim_C4.2.1 "  " (some []) (by decide),
    claim_C4.2.2.2.2.2.2.2.2.2.2.2.2.1 "/p" exAssetC4noUri rfl,
    claim_C4.2.2.2.2.2.2.2.2.2.2.2.2.2.2 "/p" [exAssetC4rel]⟩

end StatWrap
